import Mathlib

/-!
# Container download (`main.go`): shallow embedding and verified properties

The program lists the blobs of a public Azure storage container with one HTTP
request and, for every blob of the returned page, fetches the blob and stores
it below a destination directory unless something already exists there.

Embedding conventions
* Go strings are `Str` (lists of characters), byte slices are `Bytes`.
* `main`, `listFiles`, `downloadFile` and the body of the `range` loop are
  translated statement by statement; a `panic` is the outcome `Outcome.panic`.
* The process state that the program can change is `State`: the file system
  and the log of URLs handed to `http.Get`, in order.
* What the program only calls (net/url, net/http, encoding/xml, the umask of
  the process) is the `World` the functions are parameterised by, so every
  theorem holds whatever the network answers.
* `path/filepath` and `os` are modelled on cleaned paths (`CPath`) for a
  Unix file system without symbolic links and without access control.
* Diagnostic output (`log.Printf`, `fmt.Printf`) is not part of the state.
-/

namespace AzureBlob

/-- Go strings, as their sequence of characters. -/
abbrev Str := List Char

/-- Byte slices (response bodies, file contents). -/
abbrev Bytes := List Nat

/-! ## Data structures (main.go, lines 16-38) -/

/-- The Go struct `BlobProperties`. -/
structure BlobProperties where
  LastModified : Str
  Etag : Str
  ContentLength : Int
  ContentType : Str
  ContentMD5 : Str
  BlobType : Str
deriving DecidableEq

/-- The Go struct `Blob` (the `XMLName` tag field carries no data). -/
structure Blob where
  Name : Str
  Url : Str
  Properties : BlobProperties
deriving DecidableEq

/-- The Go struct `EnumerationResults`: one decoded listing page. -/
structure EnumerationResults where
  ContainerName : Str
  MaxResults : Int
  Blobs : List Blob
  NextMarker : Str
deriving DecidableEq

/-- The four flags of main.go, lines 44-49. -/
structure Config where
  path : Str
  account : Str
  container : Str
  maxresults : Int
deriving DecidableEq

/-! ## path/filepath on Unix -/

/-- A cleaned path: whether it starts at `/`, and its segments from the
outermost to the innermost. `⟨false, []⟩` is `.`, `⟨true, []⟩` is `/`; the
segment `..` occurs only at the front of a path that is not rooted. -/
structure CPath where
  rooted : Bool
  segs : List Str
deriving DecidableEq

/-- The segment `..`. -/
def dotdot : Str := ['.', '.']

/-- The pieces of a string between its `/` separators (never the empty list). -/
def splitSlash : Str → List Str
  | [] => [[]]
  | c :: cs =>
    if c = '/' then [] :: splitSlash cs
    else
      match splitSlash cs with
      | [] => [[c]]
      | s :: ss => (c :: s) :: ss

/-- One segment of `filepath.Clean`, on the stack of segments kept so far
(innermost first): empty and `.` segments are dropped, `..` removes the
segment before it, is dropped at the root, and is kept at the front of a
path that is not rooted. -/
def cleanStep (rooted : Bool) (stack : List Str) (seg : Str) : List Str :=
  if seg = [] ∨ seg = ['.'] then stack
  else if seg = dotdot then
    match stack with
    | [] => if rooted then [] else [dotdot]
    | top :: below => if top = dotdot then dotdot :: top :: below else below
  else seg :: stack

/-- Whether a path string starts with the separator. -/
def isRooted (s : Str) : Bool :=
  match s with
  | c :: _ => decide (c = '/')
  | [] => false

/-- The function `filepath.Clean`. -/
def Clean (s : Str) : CPath :=
  ⟨isRooted s, ((splitSlash s).foldl (cleanStep (isRooted s)) []).reverse⟩

/-- The call `filepath.Join(a, b)`: empty elements are ignored, the others are
joined with `/` and cleaned. (With both elements empty Go returns the empty
string; `main` never gets there, its first element is not empty.) -/
def Join (a b : Str) : CPath :=
  if a ≠ [] then Clean (a ++ '/' :: b)
  else Clean b

/-- The function `filepath.Dir` on a cleaned path: all but the last segment. -/
def Dir (p : CPath) : CPath :=
  ⟨p.rooted, p.segs.reverse.tail.reverse⟩

/-- The string of a cleaned path. -/
def render (p : CPath) : Str :=
  match p.rooted, p.segs with
  | true, segs => '/' :: List.intercalate ['/'] segs
  | false, [] => ['.']
  | false, segs => List.intercalate ['/'] segs

/-- Path `p` is `q` or lies above it: same root, and the segments of `p`
start the segments of `q`. -/
def Under (p q : CPath) : Prop :=
  p.rooted = q.rooted ∧ p.segs <+: q.segs

instance (p q : CPath) : Decidable (Under p q) := by
  unfold Under; infer_instance

/-! ## The file system and package os -/

/-- A file system entry: a regular file with its bytes and permission bits,
or a directory with its permission bits. -/
inductive Node where
  | file (data : Bytes) (perm : Nat)
  | dir (perm : Nat)
deriving DecidableEq

/-- The file system: the entries by cleaned path; the first entry of a path
is the one in force. -/
abbrev FS := List (CPath × Node)

/-- The entry stored at a path. -/
def lookup : FS → CPath → Option Node
  | [], _ => none
  | (q, n) :: rest, p => if q = p then some n else lookup rest p

/-- The error numbers the model distinguishes. -/
inductive Errno where
  | ENOENT
  | ENOTDIR
  | EEXIST
  | EISDIR
deriving DecidableEq

/-- What `os.Stat` finds. -/
inductive StatResult where
  | dir
  | file
  | err (e : Errno)
deriving DecidableEq

/-- Path resolution, on the segments of a path from the innermost outwards:
the start (`.` or `/`) is a directory; below a directory `..` is a directory
and any other name resolves to its entry or fails with ENOENT; below a file
resolution fails with ENOTDIR. -/
def statSegs (fs : FS) (rooted : Bool) : List Str → StatResult
  | [] => .dir
  | s :: up =>
    match statSegs fs rooted up with
    | .dir =>
      if s = dotdot then .dir
      else
        match lookup fs ⟨rooted, (s :: up).reverse⟩ with
        | some (.dir _) => .dir
        | some (.file _ _) => .file
        | none => .err .ENOENT
    | .file => .err .ENOTDIR
    | .err e => .err e

/-- The call `os.Stat(p)`. -/
def Stat (fs : FS) (p : CPath) : StatResult :=
  statSegs fs p.rooted p.segs.reverse

/-- The test `os.IsNotExist(err)` on the error of a `Stat`. -/
def IsNotExist (r : StatResult) : Bool :=
  decide (r = .err .ENOENT)

/-- The constant `os.ModePerm`. -/
def ModePerm : Nat := 0o777

/-- The constant `os.ModeTemporary`: the fourth constant of the `FileMode`
block `1 << (32 - 1 - iota)`. -/
def ModeTemporary : Nat := 1 <<< (32 - 1 - 3)

/-- The constant `os.ModeSetuid` (iota 8). -/
def ModeSetuid : Nat := 1 <<< (32 - 1 - 8)

/-- The constant `os.ModeSetgid` (iota 9). -/
def ModeSetgid : Nat := 1 <<< (32 - 1 - 9)

/-- The constant `os.ModeSticky` (iota 11). -/
def ModeSticky : Nat := 1 <<< (32 - 1 - 11)

/-- The function `os.syscallMode`: the bits of a `FileMode` that reach the
system call (permission bits, setuid, setgid, sticky). -/
def syscallMode (i : Nat) : Nat :=
  (i &&& ModePerm)
    ||| (if i &&& ModeSetuid ≠ 0 then 0o4000 else 0)
    ||| (if i &&& ModeSetgid ≠ 0 then 0o2000 else 0)
    ||| (if i &&& ModeSticky ≠ 0 then 0o1000 else 0)

/-- The mode a new entry gets from the kernel: `mode & ~umask`. -/
def applyUmask (mode umask : Nat) : Nat :=
  mode &&& (0o7777 ^^^ (umask &&& 0o7777))

/-- The call `os.Mkdir(p, perm)`. -/
def Mkdir (fs : FS) (p : CPath) (perm umask : Nat) : Except Errno FS :=
  match p.segs.reverse with
  | [] => .error .EEXIST
  | s :: up =>
    if s = dotdot then .error .EEXIST
    else
      match statSegs fs p.rooted up with
      | .dir =>
        match lookup fs p with
        | some _ => .error .EEXIST
        | none => .ok ((p, .dir (applyUmask (syscallMode perm) umask)) :: fs)
      | .file => .error .ENOTDIR
      | .err e => .error e

/-- The call `os.MkdirAll`, on the segments of the path from the innermost
outwards, as in package os: if the path is there, succeed for a directory and
fail with ENOTDIR for a file; otherwise make the parent, then `Mkdir` the path
and, should that fail, succeed all the same if the path is a directory.
Returns the file system reached and the error, if any. -/
def mkdirAllSegs (fs : FS) (rooted : Bool) (perm umask : Nat) :
    List Str → FS × Option Errno
  | [] => (fs, none)
  | s :: up =>
    match statSegs fs rooted (s :: up) with
    | .dir => (fs, none)
    | .file => (fs, some .ENOTDIR)
    | .err _ =>
      match mkdirAllSegs fs rooted perm umask up with
      | (fs1, some e) => (fs1, some e)
      | (fs1, none) =>
        match Mkdir fs1 ⟨rooted, (s :: up).reverse⟩ perm umask with
        | .ok fs2 => (fs2, none)
        | .error e =>
          match statSegs fs1 rooted (s :: up) with
          | .dir => (fs1, none)
          | _ => (fs1, some e)

/-- The call `os.MkdirAll(p, perm)`. -/
def MkdirAll (fs : FS) (p : CPath) (perm umask : Nat) : FS × Option Errno :=
  mkdirAllSegs fs p.rooted perm umask p.segs.reverse

/-- Replace the entries of a path. -/
def setEntry (fs : FS) (p : CPath) (n : Node) : FS :=
  fs.map (fun e => if e.1 = p then (p, n) else e)

/-- The call `os.WriteFile(p, data, perm)`: open with
`O_WRONLY|O_CREATE|O_TRUNC` and write. A new file gets `perm` through
`syscallMode` and the umask; an existing file keeps its mode and gets the new
bytes. -/
def WriteFile (fs : FS) (p : CPath) (data : Bytes) (perm umask : Nat) :
    Except Errno FS :=
  match p.segs.reverse with
  | [] => .error .EISDIR
  | s :: up =>
    if s = dotdot then .error .EISDIR
    else
      match statSegs fs p.rooted up with
      | .dir =>
        match lookup fs p with
        | some (.dir _) => .error .EISDIR
        | some (.file _ m) => .ok (setEntry fs p (.file data m))
        | none => .ok ((p, .file data (applyUmask (syscallMode perm) umask)) :: fs)
      | .file => .error .ENOTDIR
      | .err e => .error e

/-! ## The world outside the process -/

/-- The fields of `url.URL` the program depends on. -/
structure URL where
  Scheme : Str
  Host : Str
  Path : Str
  RawQuery : Str
  Fragment : Str
deriving DecidableEq

/-- What `http.Get` followed by `io.ReadAll(resp.Body)` can yield: no response
at all, or a response with a status code whose body either is read in full
or fails while being read. -/
inductive HttpResult where
  | transportError
  | response (status : Nat) (body : Option Bytes)
deriving DecidableEq

/-- The libraries and the environment the program calls.
* `urlParse` is `url.Parse` (`none` is its error),
* `urlString` is the method `String` of `url.URL`,
* `queryAdd q k v` is the raw query after `Query()`, `Add(k, v)`, `Encode()`,
* `httpGet log u` is the answer to `http.Get(u)` when the requests of `log`
  have been made before it,
* `xmlUnmarshal` is `xml.Unmarshal` into an `EnumerationResults`,
* `umask` is the file mode creation mask of the process. -/
structure World where
  urlParse : Str → Option URL
  urlString : URL → Str
  queryAdd : Str → Str → Str → Str
  httpGet : List Str → Str → HttpResult
  xmlUnmarshal : Bytes → Option EnumerationResults
  umask : Nat

/-- What the program can change: the file system, and the URLs it has
requested so far (oldest first). -/
structure State where
  fs : FS
  reqs : List Str
deriving DecidableEq

/-! ## The program -/

/-- The errors `listFiles` returns, by the statement that produces them. -/
inductive ListError where
  | parseUrl
  | request
  | readResponse
  | unmarshalXml
deriving DecidableEq

/-- The panics of `main`, by the statement that raises them. -/
inductive Panic where
  | pathMissing
  | accountMissing
  | containerMissing
  | listFiles (e : ListError)
  | parseFileUrl (url : Str)
  | downloadFile (url : Str)
  | creatingDirectory (dir : CPath)
  | saveFile (url : Str)
deriving DecidableEq

/-- How a run, or one round of the loop, ends. -/
inductive Outcome where
  | done
  | panic (p : Panic)
deriving DecidableEq

/-- The formatting `fmt.Sprintf("%d", n)`. -/
def fmtInt (n : Int) : Str :=
  match n with
  | .ofNat k => (Nat.toDigits 10 k)
  | .negSucc k => '-' :: Nat.toDigits 10 (k + 1)

/-- The string `fmt.Sprintf(listFilesTemplate, account, container)`. -/
def listFilesUrl (account container : Str) : Str :=
  "https://".toList ++ account ++ ".blob.core.windows.net/".toList ++ container
    ++ "?restype=container&comp=list".toList

/-- The address `listFiles` requests: the template filled in, parsed, with
`maxresults` added to its query, and printed again. -/
def listRequest (w : World) (cfg : Config) : Option Str :=
  match w.urlParse (listFilesUrl cfg.account cfg.container) with
  | none => none
  | some urlParsed =>
    let query := w.queryAdd urlParsed.RawQuery "maxresults".toList (fmtInt cfg.maxresults)
    some (w.urlString { urlParsed with RawQuery := query })

/-- The function `listFiles` (main.go, lines 51-78). -/
def listFiles (w : World) (cfg : Config) (s : State) :
    Except ListError EnumerationResults × State :=
  match listRequest w cfg with
  | none => (.error .parseUrl, s)
  | some target =>
    let s1 : State := { s with reqs := s.reqs ++ [target] }
    match w.httpGet s.reqs target with
    | .transportError => (.error .request, s1)
    | .response _ none => (.error .readResponse, s1)
    | .response _ (some byts) =>
      match w.xmlUnmarshal byts with
      | none => (.error .unmarshalXml, s1)
      | some results => (.ok results, s1)

/-- The function `downloadFile` (main.go, lines 80-90): `none` is its error. -/
def downloadFile (w : World) (url : Str) (s : State) : Option Bytes × State :=
  let s1 : State := { s with reqs := s.reqs ++ [url] }
  match w.httpGet s.reqs url with
  | .transportError => (none, s1)
  | .response _ none => (none, s1)
  | .response _ (some byts) => (some byts, s1)

/-- The directory step of the loop of `main` (main.go, lines 126-131): if
`Stat` reports that `dir` does not exist, `MkdirAll(dir, 0755)`. Returns the
file system reached and the error of `MkdirAll`, if any. -/
def ensureDir (w : World) (fs : FS) (dir : CPath) : FS × Option Errno :=
  if IsNotExist (Stat fs dir) then MkdirAll fs dir 0o755 w.umask
  else (fs, none)

/-- The statements of the loop of `main` that follow the download (main.go,
lines 125-140), for the blob `file`, its local path and its bytes: make the
directory of the path if it is not there, then write the file with mode
`os.ModeTemporary` if `Stat` reports that the path does not exist. -/
def storeBlob (w : World) (file : Blob) (pathToSaveFile : CPath) (body : Bytes)
    (s1 : State) : Outcome × State :=
  let dir := Dir pathToSaveFile
  match ensureDir w s1.fs dir with
  | (fs2, some _) => (.panic (.creatingDirectory dir), { s1 with fs := fs2 })
  | (fs2, none) =>
    if IsNotExist (Stat fs2 pathToSaveFile) then
      match WriteFile fs2 pathToSaveFile body ModeTemporary w.umask with
      | .error _ => (.panic (.saveFile file.Url), { s1 with fs := fs2 })
      | .ok fs3 => (.done, { s1 with fs := fs3 })
    else (.done, { s1 with fs := fs2 })

/-- One round of the loop of `main` (main.go, lines 113-140): parse the
address of the blob, download it, derive the local path, store. -/
def processBlob (w : World) (cfg : Config) (file : Blob) (s : State) :
    Outcome × State :=
  match w.urlParse file.Url with
  | none => (.panic (.parseFileUrl file.Url), s)
  | some urlParsed =>
    match downloadFile w (w.urlString urlParsed) s with
    | (none, s1) => (.panic (.downloadFile file.Url), s1)
    | (some body, s1) => storeBlob w file (Join cfg.path urlParsed.Path) body s1

/-- The loop `for _, file := range files.Blobs` of `main`: a panic ends it. -/
def rangeBlobs (w : World) (cfg : Config) : List Blob → State → Outcome × State
  | [], s => (.done, s)
  | file :: rest, s =>
    match processBlob w cfg file s with
    | (.done, s1) => rangeBlobs w cfg rest s1
    | (.panic p, s1) => (.panic p, s1)

/-- The function `main` (main.go, lines 92-143), after `flag.Parse`. -/
def main (w : World) (cfg : Config) (s : State) : Outcome × State :=
  if cfg.path = [] then (.panic .pathMissing, s)
  else if cfg.account = [] then (.panic .accountMissing, s)
  else if cfg.container = [] then (.panic .containerMissing, s)
  else
    match listFiles w cfg s with
    | (.error e, s1) => (.panic (.listFiles e), s1)
    | (.ok files, s1) => rangeBlobs w cfg files.Blobs s1

/-! ## A concrete world

The library functions below act as net/url does on the addresses used in the
examples: absolute `http`/`https` URLs whose characters need no escaping.
The network and the XML decoder of an example are finite tables. -/

/-- The function `strings.Cut` for a one-character separator. -/
def cut (sep : Char) : Str → Str × Option Str
  | [] => ([], none)
  | c :: cs =>
    if c = sep then ([], some cs)
    else
      match cut sep cs with
      | (before, after) => (c :: before, after)

/-- The scheme of an address and what follows its colon, for addresses that
start with a letter-only scheme; `none` for others. -/
def getScheme (s : Str) : Option (Str × Str) :=
  match cut ':' s with
  | (scheme, some rest) =>
    if scheme ≠ [] ∧ scheme.all Char.isAlpha then some (scheme, rest) else none
  | (_, none) => none

/-- The function `url.Parse` on `scheme://host/path?query#fragment` without
escapes; `none` (an error) for every other string. -/
def simpleUrlParse (s : Str) : Option URL :=
  match cut '#' s with
  | (u, frag) =>
    match getScheme u with
    | none => none
    | some (scheme, rest) =>
      match cut '?' rest with
      | (rest, query) =>
        match rest with
        | '/' :: '/' :: authority =>
          if s.any (fun c => c = '%') then none
          else
            some ⟨scheme, authority.takeWhile (fun c => c ≠ '/'),
              authority.dropWhile (fun c => c ≠ '/'), query.getD [], frag.getD []⟩
        | _ => none

/-- The method `String` of `url.URL` for such addresses. -/
def simpleUrlString (u : URL) : Str :=
  u.Scheme ++ "://".toList ++ u.Host ++ u.Path
    ++ (if u.RawQuery ≠ [] then '?' :: u.RawQuery else [])
    ++ (if u.Fragment ≠ [] then '#' :: u.Fragment else [])

/-- Bytewise order of strings, as `sort.Strings` uses it. -/
def strLe : Str → Str → Bool
  | [], _ => true
  | _ :: _, [] => false
  | a :: as, b :: bs => a.toNat < b.toNat || (a = b && strLe as bs)

/-- Insert a key-value pair behind the pairs whose key is not larger. -/
def insertPair (kv : Str × Str) : List (Str × Str) → List (Str × Str)
  | [] => [kv]
  | x :: xs => if strLe x.1 kv.1 then x :: insertPair kv xs else kv :: x :: xs

/-- The pieces of a raw query between its `&` separators. -/
def splitAmp : Str → List Str
  | [] => [[]]
  | c :: cs =>
    if c = '&' then [] :: splitAmp cs
    else
      match splitAmp cs with
      | [] => [[c]]
      | s :: ss => (c :: s) :: ss

/-- The pairs of a raw query. -/
def queryPairs (raw : Str) : List (Str × Str) :=
  ((splitAmp raw).filter (fun piece => piece ≠ [])).map
    (fun piece => match cut '=' piece with | (k, v) => (k, v.getD []))

/-- The raw query after `Query()`, `Add(k, v)` and `Encode()`: the pairs
sorted by key, each key keeping the order of its values. -/
def simpleQueryAdd (raw k v : Str) : Str :=
  List.intercalate ['&']
    ((((queryPairs raw ++ [(k, v)]).foldl (fun acc kv => insertPair kv acc) [])).map
      (fun kv => kv.1 ++ '=' :: kv.2))

/-- The answer a table gives for a key, or the default. -/
def tableGet {α : Type} (d : α) : List (Str × α) → Str → α
  | [], _ => d
  | (k, a) :: rest, u => if k = u then a else tableGet d rest u

/-- The decoding a table of bodies gives. -/
def tableDecode : List (Bytes × EnumerationResults) → Bytes → Option EnumerationResults
  | [], _ => none
  | (b, r) :: rest, body => if b = body then some r else tableDecode rest body

/-- The world whose network answers from the table `http` (no response for an
address that is not in it), whose decoder is the table `xml`, with the usual
umask 022. -/
def tableWorld (http : List (Str × HttpResult))
    (xml : List (Bytes × EnumerationResults)) : World where
  urlParse := simpleUrlParse
  urlString := simpleUrlString
  queryAdd := simpleQueryAdd
  httpGet := fun _ u => tableGet .transportError http u
  xmlUnmarshal := tableDecode xml
  umask := 0o022

/-- The configuration of the examples: `-path out -account acc -container pub`
with the default page size. -/
def cfg0 : Config := ⟨"out".toList, "acc".toList, "pub".toList, 500⟩

/-- The listing address of `cfg0`. -/
def listUrl0 : Str :=
  "https://acc.blob.core.windows.net/pub?comp=list&maxresults=500&restype=container".toList

/-- A blob with the given name and address. -/
def mkBlob (name url : String) : Blob :=
  ⟨name.toList, url.toList, ⟨[], [], 0, [], [], []⟩⟩

/-- The empty file system with no request made. -/
def s0 : State := ⟨[], []⟩

/-- The address of the blob `a.txt` of the container of `cfg0`. -/
def urlA : Str := "https://acc.blob.core.windows.net/pub/a.txt".toList

/-- The address of the blob `b.txt` of the container of `cfg0`. -/
def urlB : Str := "https://acc.blob.core.windows.net/pub/b.txt".toList

/-- The blob `a.txt`. -/
def blobA : Blob := mkBlob "a.txt" "https://acc.blob.core.windows.net/pub/a.txt"

/-- The blob `b.txt`. -/
def blobB : Blob := mkBlob "b.txt" "https://acc.blob.core.windows.net/pub/b.txt"

/-- The local path of `a.txt` below `out`: `out/pub/a.txt`. -/
def pathA : CPath := ⟨false, ["out".toList, "pub".toList, "a.txt".toList]⟩

/-- The local path of `b.txt` below `out`: `out/pub/b.txt`. -/
def pathB : CPath := ⟨false, ["out".toList, "pub".toList, "b.txt".toList]⟩

/-- A listing in one page: `a.txt` and `b.txt`, no marker. -/
def onePage : EnumerationResults := ⟨"pub".toList, 500, [blobA, blobB], []⟩

/-- The first of two pages: `a.txt`, and the marker `m1` of the next page. -/
def pageOne : EnumerationResults := ⟨"pub".toList, 500, [blobA], "m1".toList⟩

/-- The second and last of two pages: `b.txt`, no marker. -/
def pageTwo : EnumerationResults := ⟨"pub".toList, 500, [blobB], []⟩

/-- The listing address of `cfg0` continued at the marker `m1`. -/
def listUrlMarker : Str :=
  "https://acc.blob.core.windows.net/pub?comp=list&marker=m1&maxresults=500&restype=container".toList

/-- A container served in one page; both blobs can be fetched. -/
def worldOnePage : World :=
  tableWorld
    [(listUrl0, .response 200 (some [1])), (urlA, .response 200 (some [10])),
      (urlB, .response 200 (some [11]))]
    [([1], onePage)]

/-- A container served in two pages: the request without marker gets
`pageOne`, the request with the marker `m1` gets `pageTwo`; both blobs can be
fetched. -/
def worldTwoPages : World :=
  tableWorld
    [(listUrl0, .response 200 (some [1])), (listUrlMarker, .response 200 (some [2])),
      (urlA, .response 200 (some [10])), (urlB, .response 200 (some [11]))]
    [([1], pageOne), ([2], pageTwo)]

/-- A container served in one page where the fetch of `a.txt` gets no
response and the fetch of `b.txt` succeeds. -/
def worldFetchFails : World :=
  tableWorld
    [(listUrl0, .response 200 (some [1])), (urlB, .response 200 (some [11]))]
    [([1], onePage)]

/-- A container served in one page where the fetch of `a.txt` is answered
with status 404 and an error document as body. -/
def worldNotFound : World :=
  tableWorld
    [(listUrl0, .response 200 (some [1])), (urlA, .response 404 (some [52, 48, 52])),
      (urlB, .response 200 (some [11]))]
    [([1], onePage)]

/-- A file system where `out/pub/a.txt` is already there, with bytes other
than those the network serves. -/
def fsHave : FS :=
  [(pathA, .file [7] 0o644), (⟨false, ["out".toList, "pub".toList]⟩, .dir 0o755),
    (⟨false, ["out".toList]⟩, .dir 0o755)]

/-- The state of a fresh process on `fsHave`. -/
def sHave : State := ⟨fsHave, []⟩

/-- The configuration `-path out -account acc -container container`. -/
def cfgC : Config := ⟨"out".toList, "acc".toList, "container".toList, 500⟩

/-- The listing address of `cfgC`. -/
def listUrlC : Str :=
  "https://acc.blob.core.windows.net/container?comp=list&maxresults=500&restype=container".toList

/-- The address of the blob `a/b/c.txt` of the container `container`. -/
def urlC : Str := "https://acc.blob.core.windows.net/container/a/b/c.txt".toList

/-- The blob `a/b/c.txt` of the container `container`. -/
def blobC : Blob := mkBlob "a/b/c.txt" "https://acc.blob.core.windows.net/container/a/b/c.txt"

/-- The container `container` with the one blob `a/b/c.txt`. -/
def worldC : World :=
  tableWorld
    [(listUrlC, .response 200 (some [1])), (urlC, .response 200 (some [42]))]
    [([1], ⟨"container".toList, 500, [blobC], []⟩)]

/-- The address of a blob whose path climbs out of the container. -/
def urlEsc : Str := "https://acc.blob.core.windows.net/../x".toList

/-- A blob whose address has the path `/../x`. -/
def blobEsc : Blob := mkBlob "x" "https://acc.blob.core.windows.net/../x"

/-- A listing that names the blob `blobEsc`. -/
def worldEsc : World :=
  tableWorld
    [(listUrl0, .response 200 (some [1])), (urlEsc, .response 200 (some [66]))]
    [([1], ⟨"pub".toList, 500, [blobEsc], []⟩)]

/-- A sequence of listing pages as the service chains them: at least one page,
a marker on every page but the last, none on the last. -/
def pagesChained (pages : List EnumerationResults) : Prop :=
  pages ≠ [] ∧ (∀ p ∈ pages.dropLast, p.NextMarker ≠ []) ∧
    ∀ p ∈ pages.getLast?, p.NextMarker = []

instance (pages : List EnumerationResults) : Decidable (pagesChained pages) := by
  unfold pagesChained; infer_instance

/-- The blobs of all pages, page after page. -/
def allBlobs (pages : List EnumerationResults) : List Blob :=
  (pages.map (fun p => p.Blobs)).flatten

/-! ## Notions used by the statements -/

/-- The segments `filepath.Clean` keeps as they are: all but the empty
segment and `.` (and `..`, which it resolves). -/
def keepSeg (seg : Str) : Bool :=
  decide (¬ (seg = [] ∨ seg = ['.']))

/-- File system `fs2` extends `fs1`: every entry of `fs1` is an entry of
`fs2`, with the same content and mode. -/
def Ext (fs1 fs2 : FS) : Prop :=
  ∀ p n, lookup fs1 p = some n → lookup fs2 p = some n

/-- From `fs1` to `fs2` only entries on the way to `target` were added: every
path has the entry it had, or had none, is `target` or lies above it, and its
new entry is a directory or a file without any permission bit. -/
def Grows (fs1 fs2 : FS) (target : CPath) : Prop :=
  ∀ q, lookup fs2 q = lookup fs1 q ∨
    (lookup fs1 q = none ∧ Under q target ∧
      ((∃ m, lookup fs2 q = some (.dir m)) ∨ ∃ d, lookup fs2 q = some (.file d 0)))

/-- Every file of `fs2` is a file of `fs1` or has no permission bit set. -/
def NewFilesModeZero (fs1 fs2 : FS) : Prop :=
  ∀ p data perm, lookup fs2 p = some (.file data perm) →
    lookup fs1 p = some (.file data perm) ∨ perm = 0

/-- Every entry of the file system has a directory as its parent, as in a
file system tree. -/
def Tree (fs : FS) : Prop :=
  ∀ e ∈ fs, Stat fs (Dir e.1) = .dir

instance (fs : FS) : Decidable (Tree fs) := by
  unfold Tree; infer_instance

/-! ## Paths -/

theorem splitSlash_ne_nil (s : Str) : splitSlash s ≠ [] := by
  induction s with
  | nil => simp [splitSlash]
  | cons c cs ih =>
    unfold splitSlash
    split
    · simp
    · split <;> simp

theorem splitSlash_append (a b : Str) :
    splitSlash (a ++ '/' :: b) = splitSlash a ++ splitSlash b := by
  induction a with
  | nil => simp [splitSlash]
  | cons c cs ih =>
    by_cases hc : c = '/'
    · simp [splitSlash, hc, ih]
    · have h1 : splitSlash (c :: (cs ++ '/' :: b))
          = match splitSlash (cs ++ '/' :: b) with
            | [] => [[c]]
            | s :: ss => (c :: s) :: ss := by
        rw [splitSlash]; simp [hc]
      have h2 : splitSlash (c :: cs)
          = match splitSlash cs with
            | [] => [[c]]
            | s :: ss => (c :: s) :: ss := by
        rw [splitSlash]; simp [hc]
      rw [List.cons_append, h1, h2, ih]
      cases hs : splitSlash cs with
      | nil => exact absurd hs (splitSlash_ne_nil cs)
      | cons s ss => simp

theorem isRooted_append (a b : Str) (ha : a ≠ []) : isRooted (a ++ b) = isRooted a := by
  cases a with
  | nil => exact absurd rfl ha
  | cons c cs => rfl

theorem foldl_cleanStep_keep (r : Bool) (segs : List Str) (h : dotdot ∉ segs) (st : List Str) :
    segs.foldl (cleanStep r) st = (segs.filter keepSeg).reverse ++ st := by
  induction segs generalizing st with
  | nil => simp
  | cons x xs ih =>
    have hx : x ≠ dotdot := fun e => h (by simp [e])
    have hxs : dotdot ∉ xs := fun e => h (by simp [e])
    rw [List.foldl_cons, ih hxs]
    by_cases hk : x = [] ∨ x = ['.']
    · have : keepSeg x = false := by simp [keepSeg, hk]
      simp [cleanStep, hk, List.filter_cons, this]
    · have : keepSeg x = true := by simpa [keepSeg] using hk
      simp [cleanStep, hk, hx, List.filter_cons, this]

theorem Join_segs (a b : Str) (ha : a ≠ []) (hb : dotdot ∉ splitSlash b) :
    (Join a b).rooted = (Clean a).rooted ∧
      (Join a b).segs = (Clean a).segs ++ (splitSlash b).filter keepSeg := by
  have hr : isRooted (a ++ '/' :: b) = isRooted a := isRooted_append a _ ha
  simp only [Join, ha, ne_eq, not_false_eq_true, if_true, Clean, hr, splitSlash_append,
    List.foldl_append, true_and]
  rw [foldl_cleanStep_keep _ _ hb]
  simp

/-! ## The file system -/

theorem lookup_cons (q p : CPath) (n : Node) (fs : FS) :
    lookup ((q, n) :: fs) p = if q = p then some n else lookup fs p := rfl

theorem lookup_mem {fs : FS} {p : CPath} {n : Node} (h : lookup fs p = some n) :
    (p, n) ∈ fs := by
  induction fs with
  | nil => simp [lookup] at h
  | cons e rest ih =>
    obtain ⟨q, m⟩ := e
    rw [lookup_cons] at h
    by_cases hq : q = p
    · simp [hq] at h; simp [hq, h]
    · simp [hq] at h; exact List.mem_cons_of_mem _ (ih h)

theorem Under_refl (p : CPath) : Under p p := ⟨rfl, List.prefix_refl _⟩

theorem Under_trans {p q r : CPath} (h1 : Under p q) (h2 : Under q r) : Under p r :=
  ⟨h1.1.trans h2.1, h1.2.trans h2.2⟩

theorem Dir_Under (p : CPath) : Under (Dir p) p := by
  refine ⟨rfl, ?_⟩
  simp only [Dir]
  rcases List.eq_nil_or_concat p.segs with h | ⟨init, x, h⟩
  · simp [h]
  · simp [h]

theorem Ext_refl (fs : FS) : Ext fs fs := fun _ _ h => h

theorem Ext_trans {a b c : FS} (h1 : Ext a b) (h2 : Ext b c) : Ext a c :=
  fun p n h => h2 p n (h1 p n h)

theorem Grows_refl (fs : FS) (t : CPath) : Grows fs fs t := fun _ => Or.inl rfl

theorem Grows_ext {a b : FS} {t : CPath} (h : Grows a b t) : Ext a b := by
  intro p n hp
  rcases h p with h1 | ⟨h1, _⟩
  · rw [h1, hp]
  · rw [h1] at hp; cases hp

theorem Grows_modeZero {a b : FS} {t : CPath} (h : Grows a b t) : NewFilesModeZero a b := by
  intro p d m hp
  rcases h p with h1 | ⟨_, _, ⟨m2, h2⟩ | ⟨d2, h2⟩⟩
  · left; rw [← h1, hp]
  · rw [h2] at hp; cases hp
  · rw [h2] at hp; cases hp; right; rfl

theorem Grows_mono {a b : FS} {t t2 : CPath} (h : Grows a b t) (ht : Under t t2) :
    Grows a b t2 := by
  intro q
  rcases h q with h1 | ⟨h1, h2, h3⟩
  · exact Or.inl h1
  · exact Or.inr ⟨h1, Under_trans h2 ht, h3⟩

theorem Grows_trans {a b c : FS} {t : CPath} (h1 : Grows a b t) (h2 : Grows b c t) :
    Grows a c t := by
  intro q
  rcases h2 q with e2 | ⟨n2, u2, k2⟩
  · rcases h1 q with e1 | ⟨n1, u1, k1⟩
    · exact Or.inl (e2.trans e1)
    · exact Or.inr ⟨n1, u1, by rw [e2]; exact k1⟩
  · rcases h1 q with e1 | ⟨n1, _, k1⟩
    · exact Or.inr ⟨by rw [← e1]; exact n2, u2, k2⟩
    · rcases k1 with ⟨m, k1⟩ | ⟨d, k1⟩ <;> rw [k1] at n2 <;> cases n2

theorem Grows_cons {fs : FS} {p : CPath} {n : Node} (hp : lookup fs p = none)
    (hn : (∃ m, n = .dir m) ∨ ∃ d, n = .file d 0) : Grows fs ((p, n) :: fs) p := by
  intro q
  rw [lookup_cons]
  by_cases hq : p = q
  · subst hq
    right
    refine ⟨hp, Under_refl _, ?_⟩
    rcases hn with ⟨m, rfl⟩ | ⟨d, rfl⟩
    · left; exact ⟨m, by simp⟩
    · right; exact ⟨d, by simp⟩
  · left; simp [hq]

theorem NewFilesModeZero_refl (fs : FS) : NewFilesModeZero fs fs :=
  fun _ _ _ h => Or.inl h

theorem NewFilesModeZero_trans {a b c : FS} (h1 : NewFilesModeZero a b)
    (h2 : NewFilesModeZero b c) : NewFilesModeZero a c := by
  intro p d m hp
  rcases h2 p d m hp with h | h
  · exact h1 p d m h
  · exact Or.inr h

theorem statSegs_mono {fs fs2 : FS} (h : Ext fs fs2) (r : Bool) (l : List Str)
    (hne : statSegs fs r l ≠ .err .ENOENT) : statSegs fs2 r l = statSegs fs r l := by
  induction l with
  | nil => rfl
  | cons s up ih =>
    simp only [statSegs] at hne ⊢
    cases hu : statSegs fs r up with
    | dir =>
      rw [hu] at hne ih
      rw [ih (by simp)]
      by_cases hs : s = dotdot
      · simp [hs]
      · simp only [hs, if_false] at hne ⊢
        cases hl : lookup fs ⟨r, (s :: up).reverse⟩ with
        | none => rw [hl] at hne; exact absurd rfl hne
        | some n => rw [h _ _ hl]
    | file =>
      rw [hu] at ih
      rw [ih (by simp)]
    | err e =>
      rw [hu] at hne ih
      simp only at hne
      rw [ih hne]

theorem Stat_mono {fs fs2 : FS} (h : Ext fs fs2) (p : CPath)
    (hne : Stat fs p ≠ .err .ENOENT) : Stat fs2 p = Stat fs p :=
  statSegs_mono h _ _ hne

theorem statSegs_parent {fs : FS} {r : Bool} {s : Str} {up : List Str}
    (h : statSegs fs r (s :: up) ≠ .err .ENOENT) : statSegs fs r up ≠ .err .ENOENT := by
  intro hu
  apply h
  simp [statSegs, hu]

theorem Stat_Dir {fs : FS} {p : CPath} (h : Stat fs p ≠ .err .ENOENT) :
    Stat fs (Dir p) ≠ .err .ENOENT := by
  unfold Stat Dir at *
  simp only [List.reverse_reverse]
  cases hl : p.segs.reverse with
  | nil => simp [statSegs]
  | cons s up => rw [hl] at h; simpa using statSegs_parent h

theorem Mkdir_ok {fs fs2 : FS} {p : CPath} {perm um : Nat} (h : Mkdir fs p perm um = .ok fs2) :
    lookup fs p = none ∧ fs2 = (p, .dir (applyUmask (syscallMode perm) um)) :: fs ∧
      ∃ s up, p.segs.reverse = s :: up ∧ s ≠ dotdot ∧ statSegs fs p.rooted up = .dir := by
  unfold Mkdir at h
  cases hl : p.segs.reverse with
  | nil => simp [hl] at h
  | cons s up =>
    simp only [hl] at h
    by_cases hs : s = dotdot
    · simp [hs] at h
    · simp only [hs, if_false] at h
      cases hd : statSegs fs p.rooted up with
      | dir =>
        simp only [hd] at h
        cases hn : lookup fs p with
        | some n => simp [hn] at h
        | none =>
          simp only [hn, Except.ok.injEq] at h
          exact ⟨rfl, h.symm, s, up, rfl, hs, hd⟩
      | file => simp [hd] at h
      | err e => simp [hd] at h

theorem mkdirAllSegs_grows (fs : FS) (r : Bool) (perm um : Nat) (l : List Str) :
    Grows fs (mkdirAllSegs fs r perm um l).1 ⟨r, l.reverse⟩ := by
  induction l with
  | nil => exact Grows_refl _ _
  | cons s up ih =>
    have hu : Under (⟨r, up.reverse⟩ : CPath) ⟨r, (s :: up).reverse⟩ :=
      ⟨rfl, by simp⟩
    have ih2 := Grows_mono ih hu
    rw [mkdirAllSegs]
    split
    · exact Grows_refl _ _
    · exact Grows_refl _ _
    · split
      · rename_i hrec
        rw [hrec] at ih2
        exact ih2
      · rename_i fs1 hrec
        rw [hrec] at ih2
        split
        · rename_i fs2 hmk
          obtain ⟨hn, rfl, _⟩ := Mkdir_ok hmk
          exact Grows_trans ih2 (Grows_cons hn (Or.inl ⟨_, rfl⟩))
        · split <;> exact ih2

theorem mkdirAllSegs_ok (fs : FS) (r : Bool) (perm um : Nat) (l : List Str)
    (h : (mkdirAllSegs fs r perm um l).2 = none) :
    statSegs (mkdirAllSegs fs r perm um l).1 r l = .dir := by
  induction l with
  | nil => rfl
  | cons s up ih =>
    cases hst : statSegs fs r (s :: up) with
    | dir => rw [mkdirAllSegs]; simp only [hst]
    | file => rw [mkdirAllSegs] at h; simp [hst] at h
    | err e0 =>
      rw [mkdirAllSegs] at h ⊢
      simp only [hst] at h ⊢
      cases hrec : mkdirAllSegs fs r perm um up with
      | mk fs1 eo =>
        rw [hrec] at ih
        simp only [hrec] at h ⊢
        cases eo with
        | some e => simp at h
        | none =>
          have ih1 : statSegs fs1 r up = .dir := ih rfl
          simp only at h ⊢
          cases hmk : Mkdir fs1 ⟨r, (s :: up).reverse⟩ perm um with
          | ok fs2 =>
            simp only [hmk]
            obtain ⟨hn, rfl, s2, up2, hl, hs, _⟩ := Mkdir_ok hmk
            simp only [List.reverse_reverse] at hl
            cases hl
            have hext : Ext fs1 ((⟨r, (s :: up).reverse⟩,
                Node.dir (applyUmask (syscallMode perm) um)) :: fs1) :=
              Grows_ext (Grows_cons hn (Or.inl ⟨_, rfl⟩))
            have h1 := statSegs_mono hext r up (by rw [ih1]; simp)
            rw [ih1] at h1
            rw [statSegs, h1]
            simp [hs, lookup_cons]
          | error e =>
            simp only [hmk] at h ⊢
            cases hd : statSegs fs1 r (s :: up) with
            | dir => simp only [hd]
            | file => simp [hd] at h
            | err e1 => simp [hd] at h

theorem CPath_eq_of_reverse {p : CPath} {l : List Str} (h : p.segs.reverse = l) :
    (⟨p.rooted, l.reverse⟩ : CPath) = p := by
  cases p with
  | mk r segs => simp only at h; subst h; simp

theorem modeTemporary_zero (um : Nat) : applyUmask (syscallMode ModeTemporary) um = 0 := by
  have h : syscallMode ModeTemporary = 0 := by decide
  rw [h, applyUmask, Nat.zero_and]

theorem WriteFile_of_notExist {fs : FS} {p : CPath} (body : Bytes) (perm um : Nat)
    (h : Stat fs p = .err .ENOENT) :
    (∃ e, WriteFile fs p body perm um = .error e) ∨
      (lookup fs p = none ∧
        WriteFile fs p body perm um
          = .ok ((p, .file body (applyUmask (syscallMode perm) um)) :: fs) ∧
        ∃ s up, p.segs.reverse = s :: up ∧ s ≠ dotdot ∧ statSegs fs p.rooted up = .dir) := by
  unfold Stat at h
  unfold WriteFile
  cases hl : p.segs.reverse with
  | nil => rw [hl] at h; simp [statSegs] at h
  | cons s up =>
    rw [hl] at h
    have hp := CPath_eq_of_reverse hl
    simp only
    by_cases hs : s = dotdot
    · left; simp [hs]
    · simp only [hs, if_false]
      rw [statSegs] at h
      cases hd : statSegs fs p.rooted up with
      | dir =>
        simp only [hd, hs, if_false, hp] at h ⊢
        cases hn : lookup fs p with
        | none => right; exact ⟨rfl, rfl, s, up, rfl, hs, hd⟩
        | some n => cases n <;> simp [hn] at h
      | file => left; simp
      | err e => left; simp

theorem ensureDir_grows (w : World) (fs : FS) (p : CPath) :
    Grows fs (ensureDir w fs (Dir p)).1 p := by
  unfold ensureDir
  split
  · have h := mkdirAllSegs_grows fs (Dir p).rooted 0o755 w.umask (Dir p).segs.reverse
    simp only [List.reverse_reverse] at h
    exact Grows_mono h (Dir_Under p)
  · exact Grows_refl _ _

theorem ensureDir_ok (w : World) (fs : FS) (d : CPath)
    (h : (ensureDir w fs d).2 = none) : Stat (ensureDir w fs d).1 d ≠ .err .ENOENT := by
  unfold ensureDir at h ⊢
  split
  · rename_i hc
    simp only [hc, if_true] at h
    have := mkdirAllSegs_ok fs d.rooted 0o755 w.umask d.segs.reverse h
    unfold Stat MkdirAll
    rw [this]; simp
  · rename_i hc
    simpa [IsNotExist] using hc

theorem ensureDir_noop (w : World) (fs : FS) (d : CPath) (h : Stat fs d ≠ .err .ENOENT) :
    ensureDir w fs d = (fs, none) := by
  simp [ensureDir, IsNotExist, h]

theorem storeBlob_reqs (w : World) (file : Blob) (p : CPath) (body : Bytes) (s : State) :
    (storeBlob w file p body s).2.reqs = s.reqs := by
  unfold storeBlob
  simp only
  split
  · rfl
  · split
    · split <;> rfl
    · rfl

theorem storeBlob_grows (w : World) (file : Blob) (p : CPath) (body : Bytes) (s : State) :
    Grows s.fs (storeBlob w file p body s).2.fs p := by
  have hg := ensureDir_grows w s.fs p
  unfold storeBlob
  simp only
  cases hm : ensureDir w s.fs (Dir p) with
  | mk fs2 eo =>
    rw [hm] at hg
    cases eo with
    | some e => exact hg
    | none =>
      simp only
      split
      · rename_i hne
        have hne2 : Stat fs2 p = .err .ENOENT := by simpa [IsNotExist] using hne
        rcases WriteFile_of_notExist body ModeTemporary w.umask hne2 with ⟨e, he⟩ | ⟨hn, hw, _⟩
        · rw [he]; exact hg
        · rw [hw]
          refine Grows_trans hg (Grows_cons hn (Or.inr ⟨body, ?_⟩))
          rw [modeTemporary_zero]
      · exact hg

theorem storeBlob_done (w : World) (file : Blob) (p : CPath) (body : Bytes) (s : State)
    (h : (storeBlob w file p body s).1 = .done) :
    Stat (storeBlob w file p body s).2.fs p ≠ .err .ENOENT := by
  unfold storeBlob at h ⊢
  simp only at h ⊢
  cases hm : ensureDir w s.fs (Dir p) with
  | mk fs2 eo =>
    rw [hm] at h
    cases eo with
    | some e => simp at h
    | none =>
      simp only at h ⊢
      by_cases hne : IsNotExist (Stat fs2 p) = true
      · simp only [hne, if_true] at h ⊢
        have hne2 : Stat fs2 p = .err .ENOENT := by simpa [IsNotExist] using hne
        rcases WriteFile_of_notExist body ModeTemporary w.umask hne2 with
          ⟨e, he⟩ | ⟨hn, hw, s1, up, hl, hs, hd⟩
        · rw [he] at h; simp at h
        · rw [hw]
          simp only
          have hext : Ext fs2 ((p, Node.file body
              (applyUmask (syscallMode ModeTemporary) w.umask)) :: fs2) :=
            Grows_ext (Grows_cons hn (Or.inr ⟨body, by rw [modeTemporary_zero]⟩))
          have h1 := statSegs_mono hext p.rooted up (by rw [hd]; simp)
          rw [hd] at h1
          unfold Stat
          rw [hl, statSegs, h1, CPath_eq_of_reverse hl]
          simp [hs, lookup_cons]
      · simp only [hne] at h ⊢
        simpa [IsNotExist] using hne

theorem storeBlob_noop (w : World) (file : Blob) (p : CPath) (body : Bytes) (s : State)
    (h : Stat s.fs p ≠ .err .ENOENT) : storeBlob w file p body s = (.done, s) := by
  unfold storeBlob
  simp only [ensureDir_noop w s.fs (Dir p) (Stat_Dir h)]
  simp [IsNotExist, h]

/-! ## The loop -/

theorem downloadFile_snd (w : World) (url : Str) (s : State) :
    (downloadFile w url s).2 = ⟨s.fs, s.reqs ++ [url]⟩ := by
  unfold downloadFile
  simp only
  split <;> rfl

theorem downloadFile_fst (w : World) (url : Str) (fsA fsC : FS) (log : List Str) :
    (downloadFile w url ⟨fsC, log⟩).1 = (downloadFile w url ⟨fsA, log⟩).1 := by
  unfold downloadFile
  simp only
  split <;> rfl

theorem downloadFile_eq (w : World) (url : Str) (s : State) :
    downloadFile w url s = ((downloadFile w url s).1, ⟨s.fs, s.reqs ++ [url]⟩) := by
  rw [← downloadFile_snd]

theorem processBlob_some (w : World) (cfg : Config) (b : Blob) (s : State) (u : URL)
    (hu : w.urlParse b.Url = some u) :
    processBlob w cfg b s =
      match (downloadFile w (w.urlString u) s).1 with
      | none => (.panic (.downloadFile b.Url), ⟨s.fs, s.reqs ++ [w.urlString u]⟩)
      | some body =>
        storeBlob w b (Join cfg.path u.Path) body ⟨s.fs, s.reqs ++ [w.urlString u]⟩ := by
  unfold processBlob
  simp only [hu]
  rw [downloadFile_eq]
  cases (downloadFile w (w.urlString u) s).1 <;> rfl

theorem processBlob_grows (w : World) (cfg : Config) (b : Blob) (s : State) :
    ∃ t, Grows s.fs (processBlob w cfg b s).2.fs t := by
  cases hu : w.urlParse b.Url with
  | none =>
    refine ⟨⟨false, []⟩, ?_⟩
    simp only [processBlob, hu]
    exact Grows_refl _ _
  | some u =>
    refine ⟨Join cfg.path u.Path, ?_⟩
    rw [processBlob_some w cfg b s u hu]
    cases (downloadFile w (w.urlString u) s).1 with
    | none => exact Grows_refl _ _
    | some body =>
      exact storeBlob_grows w b (Join cfg.path u.Path) body ⟨s.fs, s.reqs ++ [w.urlString u]⟩

theorem processBlob_done (w : World) (cfg : Config) (b : Blob) (s : State)
    (h : (processBlob w cfg b s).1 = .done) :
    ∃ u body, w.urlParse b.Url = some u ∧
      (downloadFile w (w.urlString u) s).1 = some body ∧
      processBlob w cfg b s
        = storeBlob w b (Join cfg.path u.Path) body ⟨s.fs, s.reqs ++ [w.urlString u]⟩ := by
  cases hu : w.urlParse b.Url with
  | none => simp [processBlob, hu] at h
  | some u =>
    rw [processBlob_some w cfg b s u hu] at h ⊢
    cases hd : (downloadFile w (w.urlString u) s).1 with
    | none => rw [hd] at h; simp at h
    | some body => exact ⟨u, body, rfl, hd, rfl⟩

theorem processBlob_replay (w : World) (cfg : Config) (b : Blob) (fsA fsC : FS)
    (log : List Str) (h : (processBlob w cfg b ⟨fsA, log⟩).1 = .done)
    (hext : Ext (processBlob w cfg b ⟨fsA, log⟩).2.fs fsC) :
    processBlob w cfg b ⟨fsC, log⟩
      = (.done, ⟨fsC, (processBlob w cfg b ⟨fsA, log⟩).2.reqs⟩) := by
  obtain ⟨u, body, hu, hd, hp⟩ := processBlob_done w cfg b ⟨fsA, log⟩ h
  rw [hp] at h hext ⊢
  have hst := storeBlob_done w b _ body _ h
  have hC : Stat fsC (Join cfg.path u.Path) ≠ .err .ENOENT := by
    rw [Stat_mono hext _ hst]; exact hst
  rw [processBlob_some w cfg b ⟨fsC, log⟩ u hu, downloadFile_fst w _ fsA fsC log, hd]
  simp only
  rw [storeBlob_noop w b _ body ⟨fsC, log ++ [w.urlString u]⟩ hC, storeBlob_reqs]

theorem rangeBlobs_cons_done (w : World) (cfg : Config) (b : Blob) (bs : List Blob)
    (s : State) (h : (processBlob w cfg b s).1 = .done) :
    rangeBlobs w cfg (b :: bs) s = rangeBlobs w cfg bs (processBlob w cfg b s).2 := by
  rw [rangeBlobs]
  cases hp : processBlob w cfg b s with
  | mk o s1 =>
    rw [hp] at h
    simp only at h
    subst h
    rfl

theorem rangeBlobs_cons_panic (w : World) (cfg : Config) (b : Blob) (bs : List Blob)
    (s : State) (h : (processBlob w cfg b s).1 ≠ .done) :
    rangeBlobs w cfg (b :: bs) s = processBlob w cfg b s := by
  rw [rangeBlobs]
  cases hp : processBlob w cfg b s with
  | mk o s1 =>
    rw [hp] at h
    cases o with
    | done => exact absurd rfl h
    | panic p => rfl

theorem rangeBlobs_ext (w : World) (cfg : Config) (bs : List Blob) (s : State) :
    Ext s.fs (rangeBlobs w cfg bs s).2.fs ∧ NewFilesModeZero s.fs (rangeBlobs w cfg bs s).2.fs := by
  induction bs generalizing s with
  | nil => exact ⟨Ext_refl _, NewFilesModeZero_refl _⟩
  | cons b bs ih =>
    obtain ⟨t, hg⟩ := processBlob_grows w cfg b s
    by_cases h : (processBlob w cfg b s).1 = .done
    · rw [rangeBlobs_cons_done w cfg b bs s h]
      have := ih (processBlob w cfg b s).2
      exact ⟨Ext_trans (Grows_ext hg) this.1, NewFilesModeZero_trans (Grows_modeZero hg) this.2⟩
    · rw [rangeBlobs_cons_panic w cfg b bs s h]
      exact ⟨Grows_ext hg, Grows_modeZero hg⟩

theorem rangeBlobs_head_done (w : World) (cfg : Config) (b : Blob) (bs : List Blob)
    (s : State) (h : (rangeBlobs w cfg (b :: bs) s).1 = .done) :
    (processBlob w cfg b s).1 = .done := by
  by_contra hp
  rw [rangeBlobs_cons_panic w cfg b bs s hp] at h
  exact hp h

theorem rangeBlobs_replay (w : World) (cfg : Config) (bs : List Blob) (fsA fsC : FS)
    (log : List Str) (h : (rangeBlobs w cfg bs ⟨fsA, log⟩).1 = .done)
    (hext : Ext (rangeBlobs w cfg bs ⟨fsA, log⟩).2.fs fsC) :
    rangeBlobs w cfg bs ⟨fsC, log⟩
      = (.done, ⟨fsC, (rangeBlobs w cfg bs ⟨fsA, log⟩).2.reqs⟩) := by
  induction bs generalizing fsA log with
  | nil => rfl
  | cons b bs ih =>
    have hp := rangeBlobs_head_done w cfg b bs _ h
    rw [rangeBlobs_cons_done w cfg b bs _ hp] at h hext ⊢
    have hext1 : Ext (processBlob w cfg b ⟨fsA, log⟩).2.fs fsC :=
      Ext_trans (rangeBlobs_ext w cfg bs _).1 hext
    have hr := processBlob_replay w cfg b fsA fsC log hp hext1
    have hdone : (processBlob w cfg b ⟨fsC, log⟩).1 = .done := by rw [hr]
    rw [rangeBlobs_cons_done w cfg b bs _ hdone, hr]
    exact ih (processBlob w cfg b ⟨fsA, log⟩).2.fs (processBlob w cfg b ⟨fsA, log⟩).2.reqs h hext

theorem rangeBlobs_append (w : World) (cfg : Config) (pre post : List Blob) (s : State) :
    rangeBlobs w cfg (pre ++ post) s =
      match rangeBlobs w cfg pre s with
      | (.done, s1) => rangeBlobs w cfg post s1
      | (.panic p, s1) => (.panic p, s1) := by
  induction pre generalizing s with
  | nil => rfl
  | cons b bs ih =>
    by_cases h : (processBlob w cfg b s).1 = .done
    · rw [List.cons_append, rangeBlobs_cons_done w cfg b _ s h,
        rangeBlobs_cons_done w cfg b _ s h, ih]
    · rw [List.cons_append, rangeBlobs_cons_panic w cfg b _ s h,
        rangeBlobs_cons_panic w cfg b _ s h]
      cases hp : processBlob w cfg b s with
      | mk o s1 =>
        rw [hp] at h
        cases o with
        | done => exact absurd rfl h
        | panic p => rfl

theorem processBlob_done_reqs (w : World) (cfg : Config) (b : Blob) (s : State)
    (h : (processBlob w cfg b s).1 = .done) :
    ∃ u, w.urlParse b.Url = some u ∧
      (processBlob w cfg b s).2.reqs = s.reqs ++ [w.urlString u] ∧
      Stat (processBlob w cfg b s).2.fs (Join cfg.path u.Path) ≠ .err .ENOENT := by
  obtain ⟨u, body, hu, _, hp⟩ := processBlob_done w cfg b s h
  refine ⟨u, hu, ?_, ?_⟩
  · rw [hp, storeBlob_reqs]
  · rw [hp] at h ⊢
    exact storeBlob_done w b _ body _ h

theorem rangeBlobs_done_reqs (w : World) (cfg : Config) (bs : List Blob) (s : State)
    (h : (rangeBlobs w cfg bs s).1 = .done) :
    (rangeBlobs w cfg bs s).2.reqs.length = s.reqs.length + bs.length := by
  induction bs generalizing s with
  | nil => rfl
  | cons b bs ih =>
    have hp := rangeBlobs_head_done w cfg b bs s h
    rw [rangeBlobs_cons_done w cfg b bs s hp] at h ⊢
    obtain ⟨u, _, hr, _⟩ := processBlob_done_reqs w cfg b s hp
    rw [ih _ h, hr]
    simp; omega

theorem rangeBlobs_done_settled (w : World) (cfg : Config) (bs : List Blob) (s : State)
    (h : (rangeBlobs w cfg bs s).1 = .done) :
    ∀ b ∈ bs, ∃ u, w.urlParse b.Url = some u ∧
      Stat (rangeBlobs w cfg bs s).2.fs (Join cfg.path u.Path) ≠ .err .ENOENT := by
  induction bs generalizing s with
  | nil => intro b hb; cases hb
  | cons b0 bs ih =>
    have hp := rangeBlobs_head_done w cfg b0 bs s h
    rw [rangeBlobs_cons_done w cfg b0 bs s hp] at h ⊢
    intro b hb
    rcases List.mem_cons.1 hb with rfl | hb
    · obtain ⟨u, hu, _, hs⟩ := processBlob_done_reqs w cfg b s hp
      refine ⟨u, hu, ?_⟩
      rw [Stat_mono (rangeBlobs_ext w cfg bs _).1 _ hs]
      exact hs
    · exact ih _ h b hb

/-! ## listFiles and main -/

theorem listFiles_snd (w : World) (cfg : Config) (s : State) :
    (listFiles w cfg s).2.fs = s.fs := by
  unfold listFiles
  split
  · rfl
  · simp only
    split
    · rfl
    · rfl
    · split <;> rfl

theorem listFiles_fs (w : World) (cfg : Config) (fsA fsC : FS) (log : List Str) :
    listFiles w cfg ⟨fsC, log⟩
      = ((listFiles w cfg ⟨fsA, log⟩).1, ⟨fsC, (listFiles w cfg ⟨fsA, log⟩).2.reqs⟩) := by
  unfold listFiles
  split
  · rfl
  · simp only
    split
    · rfl
    · rfl
    · split <;> rfl

theorem main_of_config (w : World) (cfg : Config) (s : State)
    (h1 : cfg.path ≠ []) (h2 : cfg.account ≠ []) (h3 : cfg.container ≠ []) :
    main w cfg s =
      match listFiles w cfg s with
      | (.error e, s1) => (.panic (.listFiles e), s1)
      | (.ok files, s1) => rangeBlobs w cfg files.Blobs s1 := by
  simp [main, h1, h2, h3]

theorem main_grows (w : World) (cfg : Config) (s : State) :
    Ext s.fs (main w cfg s).2.fs ∧ NewFilesModeZero s.fs (main w cfg s).2.fs := by
  unfold main
  split
  · exact ⟨Ext_refl _, NewFilesModeZero_refl _⟩
  · split
    · exact ⟨Ext_refl _, NewFilesModeZero_refl _⟩
    · split
      · exact ⟨Ext_refl _, NewFilesModeZero_refl _⟩
      · have hl := listFiles_snd w cfg s
        split
        · rename_i e s1 heq
          rw [heq] at hl
          simp only at hl ⊢
          rw [hl]
          exact ⟨Ext_refl _, NewFilesModeZero_refl _⟩
        · rename_i files s1 heq
          rw [heq] at hl
          simp only at hl
          have := rangeBlobs_ext w cfg files.Blobs s1
          rw [hl] at this
          exact this

theorem main_rerun (w : World) (cfg : Config) (s : State)
    (h : (main w cfg s).1 = .done) :
    main w cfg ⟨(main w cfg s).2.fs, s.reqs⟩ = (.done, (main w cfg s).2) := by
  by_cases h1 : cfg.path = []
  · simp [main, h1] at h
  by_cases h2 : cfg.account = []
  · simp [main, h1, h2] at h
  by_cases h3 : cfg.container = []
  · simp [main, h1, h2, h3] at h
  rw [main_of_config w cfg _ h1 h2 h3, listFiles_fs w cfg s.fs _ s.reqs]
  rw [main_of_config w cfg s h1 h2 h3] at h ⊢
  have hs : (⟨s.fs, s.reqs⟩ : State) = s := rfl
  rw [hs]
  cases hl : listFiles w cfg s with
  | mk r s1 =>
    rw [hl] at h
    cases r with
    | error e => simp at h
    | ok files =>
      simp only at h ⊢
      have hs1 : (⟨s1.fs, s1.reqs⟩ : State) = s1 := rfl
      have := rangeBlobs_replay w cfg files.Blobs s1.fs (rangeBlobs w cfg files.Blobs s1).2.fs
        s1.reqs (by rw [hs1]; exact h) (by rw [hs1]; exact Ext_refl _)
      rw [hs1] at this
      rw [this]

/-! ## Writing below a file system tree -/

theorem mkdirAllSegs_of_dir (fs : FS) (r : Bool) (perm um : Nat) (l : List Str)
    (h : statSegs fs r l = .dir) : mkdirAllSegs fs r perm um l = (fs, none) := by
  cases l with
  | nil => rfl
  | cons s up => rw [mkdirAllSegs]; simp only [h]

theorem mkdirAllSegs_frame (fs : FS) (r : Bool) (perm um : Nat) (l : List Str) (p : CPath)
    (hlen : l.length < p.segs.length) :
    lookup (mkdirAllSegs fs r perm um l).1 p = lookup fs p := by
  rcases mkdirAllSegs_grows fs r perm um l p with h | ⟨_, hu, _⟩
  · exact h
  · have := hu.2.length_le
    simp at this
    omega

theorem Tree_lookup {fs : FS} (ht : Tree fs) {r : Bool} {s : Str} {up : List Str} {n : Node}
    (h : lookup fs ⟨r, (s :: up).reverse⟩ = some n) : statSegs fs r up = .dir := by
  have := ht _ (lookup_mem h)
  simpa [Stat, Dir] using this

theorem Mkdir_new {fs : FS} {p : CPath} (perm um : Nat) {s : Str} {up : List Str}
    (hl : p.segs.reverse = s :: up) (hs : s ≠ dotdot)
    (hd : statSegs fs p.rooted up = .dir) (hn : lookup fs p = none) :
    Mkdir fs p perm um = .ok ((p, .dir (applyUmask (syscallMode perm) um)) :: fs) := by
  unfold Mkdir
  simp only [hl, hs, if_false, hd, hn]

theorem Mkdir_dotdot {fs : FS} {p : CPath} (perm um : Nat) {up : List Str}
    (hl : p.segs.reverse = dotdot :: up) : Mkdir fs p perm um = .error .EEXIST := by
  unfold Mkdir
  simp only [hl, if_true]

theorem mkdirAllSegs_tree (fs : FS) (r : Bool) (perm um : Nat) (l : List Str)
    (ht : Tree fs) (h : statSegs fs r l = .err .ENOENT) :
    (mkdirAllSegs fs r perm um l).2 = none := by
  induction l with
  | nil => rfl
  | cons s up ih =>
    rw [mkdirAllSegs]
    simp only [h]
    rw [statSegs] at h
    cases hup : statSegs fs r up with
    | dir =>
      rw [hup] at h
      simp only at h
      by_cases hs : s = dotdot
      · simp [hs] at h
      · simp only [hs, if_false] at h
        have hn : lookup fs ⟨r, (s :: up).reverse⟩ = none := by
          cases hl : lookup fs ⟨r, (s :: up).reverse⟩ with
          | none => rfl
          | some n => rw [hl] at h; cases n <;> simp at h
        rw [mkdirAllSegs_of_dir fs r perm um up hup]
        simp only
        rw [Mkdir_new perm um (List.reverse_reverse (s :: up)) hs hup hn]
    | file => rw [hup] at h; simp at h
    | err e =>
      rw [hup] at h
      simp only [StatResult.err.injEq] at h
      subst h
      have ih1 := ih hup
      have hok := mkdirAllSegs_ok fs r perm um up ih1
      have hfr := mkdirAllSegs_frame fs r perm um up ⟨r, (s :: up).reverse⟩ (by simp)
      cases hrec : mkdirAllSegs fs r perm um up with
      | mk fs1 eo =>
        rw [hrec] at ih1 hok hfr
        simp only at ih1 hok hfr
        subst ih1
        simp only
        by_cases hs : s = dotdot
        · subst hs
          have : statSegs fs1 r (dotdot :: up) = .dir := by rw [statSegs, hok]; simp
          rw [Mkdir_dotdot perm um (List.reverse_reverse (dotdot :: up))]
          simp only [this]
        · have hn : lookup fs1 ⟨r, (s :: up).reverse⟩ = none := by
            rw [hfr]
            cases hl : lookup fs ⟨r, (s :: up).reverse⟩ with
            | none => rfl
            | some n => rw [Tree_lookup ht hl] at hup; cases hup
          rw [Mkdir_new perm um (List.reverse_reverse (s :: up)) hs hok hn]

theorem storeBlob_writes (w : World) (file : Blob) (p : CPath) (body : Bytes) (s : State)
    (ht : Tree s.fs) (hne : Stat s.fs p = .err .ENOENT)
    (hlast : ∀ x up, p.segs.reverse = x :: up → x ≠ dotdot) :
    (storeBlob w file p body s).1 = .done ∧
      lookup (storeBlob w file p body s).2.fs p = some (.file body 0) := by
  cases hl : p.segs.reverse with
  | nil => simp [Stat, hl, statSegs] at hne
  | cons x up =>
    have hx := hlast x up hl
    have hp := CPath_eq_of_reverse hl
    have hdir : Stat s.fs (Dir p) = statSegs s.fs p.rooted up := by
      simp [Stat, Dir, hl]
    have hne0 := hne
    rw [Stat, hl, statSegs] at hne
    have key : ∃ fs2, ensureDir w s.fs (Dir p) = (fs2, none) ∧
        statSegs fs2 p.rooted up = .dir ∧ lookup fs2 p = none := by
      cases hup : statSegs s.fs p.rooted up with
      | dir =>
        refine ⟨s.fs, ensureDir_noop w s.fs _ (by rw [hdir, hup]; simp), hup, ?_⟩
        rw [hup] at hne
        simp only [hx, if_false, hp] at hne
        cases hlk : lookup s.fs p with
        | none => rfl
        | some n => rw [hlk] at hne; cases n <;> simp at hne
      | file => rw [hup] at hne; simp at hne
      | err e =>
        rw [hup] at hne
        simp only [StatResult.err.injEq] at hne
        subst hne
        have hlen : (Dir p).segs.reverse.length < p.segs.length := by
          have : p.segs.length = (p.segs.reverse).length := by simp
          rw [this, hl]; simp [Dir, hl]
        have hD : (Dir p).segs.reverse = up := by simp [Dir, hl]
        have hnone := mkdirAllSegs_tree s.fs p.rooted 0o755 w.umask up ht hup
        have hok := mkdirAllSegs_ok s.fs p.rooted 0o755 w.umask up hnone
        have hfr := mkdirAllSegs_frame s.fs p.rooted 0o755 w.umask up p
          (by rw [← hD]; exact hlen)
        have hE : ensureDir w s.fs (Dir p) = mkdirAllSegs s.fs p.rooted 0o755 w.umask up := by
          unfold ensureDir
          rw [hdir, hup]
          simp only [IsNotExist, decide_True, if_true]
          unfold MkdirAll
          rw [hD]
          rfl
        cases hrec : mkdirAllSegs s.fs p.rooted 0o755 w.umask up with
        | mk fs1 eo =>
          rw [hrec] at hnone hok hfr
          simp only at hnone hok hfr
          subst hnone
          refine ⟨fs1, by rw [hE, hrec], hok, ?_⟩
          rw [hfr]
          cases hlk : lookup s.fs p with
          | none => rfl
          | some n =>
            rw [← hp] at hlk
            rw [Tree_lookup ht hlk] at hup
            cases hup
    obtain ⟨fs2, he, hd2, hn2⟩ := key
    have hst2 : Stat fs2 p = .err .ENOENT := by
      rw [Stat, hl, statSegs, hd2]
      simp only [hx, if_false, hp, hn2]
    have hw : WriteFile fs2 p body ModeTemporary w.umask
        = .ok ((p, .file body 0) :: fs2) := by
      rcases WriteFile_of_notExist body ModeTemporary w.umask hst2 with ⟨e, he2⟩ | ⟨_, hw, _⟩
      · simp [WriteFile, hl, hx, hd2, hn2] at he2
      · rw [hw, modeTemporary_zero]
    simp [storeBlob, he, IsNotExist, hst2, hw, lookup_cons]

/-! ## Further facts about the rounds of the loop -/

theorem splitSlash_no_slash (c : Str) (h : '/' ∉ c) : splitSlash c = [c] := by
  induction c with
  | nil => rfl
  | cons a as ih =>
    have ha : a ≠ '/' := fun e => h (by simp [e])
    have has : '/' ∉ as := fun e => h (by simp [e])
    rw [splitSlash, ih has]
    simp [ha]

theorem downloadFile_response (w : World) (url : Str) (s : State) (status : Nat)
    (body : Bytes) (h : w.httpGet s.reqs url = .response status (some body)) :
    (downloadFile w url s).1 = some body := by
  simp [downloadFile, h]

theorem downloadFile_none_iff (w : World) (url : Str) (s : State) :
    (downloadFile w url s).1 = none ↔
      (w.httpGet s.reqs url = .transportError ∨
        ∃ status, w.httpGet s.reqs url = .response status none) := by
  unfold downloadFile
  simp only
  cases h : w.httpGet s.reqs url with
  | transportError => simp
  | response status body =>
    cases body with
    | none => simp
    | some b => simp

theorem processBlob_grows_some (w : World) (cfg : Config) (b : Blob) (s : State) (u : URL)
    (hu : w.urlParse b.Url = some u) :
    Grows s.fs (processBlob w cfg b s).2.fs (Join cfg.path u.Path) := by
  rw [processBlob_some w cfg b s u hu]
  cases (downloadFile w (w.urlString u) s).1 with
  | none => exact Grows_refl _ _
  | some body =>
    exact storeBlob_grows w b (Join cfg.path u.Path) body ⟨s.fs, s.reqs ++ [w.urlString u]⟩

theorem processBlob_existing (w : World) (cfg : Config) (b : Blob) (s : State) (u : URL)
    (hu : w.urlParse b.Url = some u)
    (he : Stat s.fs (Join cfg.path u.Path) ≠ .err .ENOENT) :
    (processBlob w cfg b s).2 = ⟨s.fs, s.reqs ++ [w.urlString u]⟩ := by
  rw [processBlob_some w cfg b s u hu]
  cases (downloadFile w (w.urlString u) s).1 with
  | none => rfl
  | some body =>
    simp only
    rw [storeBlob_noop w b _ body ⟨s.fs, s.reqs ++ [w.urlString u]⟩ he]

theorem listFiles_ok (w : World) (cfg : Config) (s : State) (files : EnumerationResults)
    (h : (listFiles w cfg s).1 = .ok files) :
    ∃ target, listRequest w cfg = some target ∧
      listFiles w cfg s = (.ok files, ⟨s.fs, s.reqs ++ [target]⟩) := by
  unfold listFiles at h ⊢
  cases ht : listRequest w cfg with
  | none => simp [ht] at h
  | some target =>
    refine ⟨target, rfl, ?_⟩
    simp only [ht] at h ⊢
    cases hr : w.httpGet s.reqs target with
    | transportError => simp [hr] at h
    | response status body =>
      cases body with
      | none => simp [hr] at h
      | some byts =>
        simp only [hr] at h ⊢
        cases hx : w.xmlUnmarshal byts with
        | none => simp [hx] at h
        | some results =>
          simp only [hx] at h ⊢
          cases h
          rfl

theorem main_done (w : World) (cfg : Config) (s : State) (h : (main w cfg s).1 = .done) :
    ∃ files target, listFiles w cfg s = (.ok files, ⟨s.fs, s.reqs ++ [target]⟩) ∧
      main w cfg s = rangeBlobs w cfg files.Blobs ⟨s.fs, s.reqs ++ [target]⟩ := by
  by_cases h1 : cfg.path = []
  · simp [main, h1] at h
  by_cases h2 : cfg.account = []
  · simp [main, h1, h2] at h
  by_cases h3 : cfg.container = []
  · simp [main, h1, h2, h3] at h
  rw [main_of_config w cfg s h1 h2 h3] at h ⊢
  cases hl : listFiles w cfg s with
  | mk r s1 =>
    rw [hl] at h
    cases r with
    | error e => simp at h
    | ok files =>
      obtain ⟨target, _, ht⟩ := listFiles_ok w cfg s files (by rw [hl])
      rw [hl] at ht
      cases ht
      exact ⟨files, target, rfl, rfl⟩

/-! ## The claims -/

/-- C1, as the code has it: when the service holds a chain of listing pages
and answers the one request of `listFiles` (which carries no marker) with the
first page, `listFiles` makes that single request and returns the first page,
`main` enumerates exactly the blobs of the first page; these are the leading
part of the concatenation of all pages, and all of it when there is one page
only. -/
theorem listFiles_returns_first_page (w : World) (cfg : Config) (s : State)
    (pages : List EnumerationResults) (target : Str) (status : Nat) (body : Bytes)
    (hc : pagesChained pages)
    (ht : listRequest w cfg = some target)
    (hr : w.httpGet s.reqs target = .response status (some body))
    (hx : w.xmlUnmarshal body = pages.head?) :
    ∃ first rest, pages = first :: rest ∧
      listFiles w cfg s = (.ok first, ⟨s.fs, s.reqs ++ [target]⟩) ∧
      (cfg.path ≠ [] → cfg.account ≠ [] → cfg.container ≠ [] →
        main w cfg s = rangeBlobs w cfg first.Blobs ⟨s.fs, s.reqs ++ [target]⟩) ∧
      allBlobs pages = first.Blobs ++ allBlobs rest ∧
      (rest = [] → first.Blobs = allBlobs pages) := by
  cases pages with
  | nil => exact absurd rfl hc.1
  | cons first rest =>
    have hl : listFiles w cfg s = (.ok first, ⟨s.fs, s.reqs ++ [target]⟩) := by
      simp only [List.head?_cons] at hx
      simp [listFiles, ht, hr, hx]
    refine ⟨first, rest, rfl, hl, ?_, by simp [allBlobs], ?_⟩
    · intro h1 h2 h3
      rw [main_of_config w cfg s h1 h2 h3, hl]
    · intro hrest
      subst hrest
      simp [allBlobs]

/-- Witness of C1 (amended): the container served in two pages. -/
theorem listFiles_returns_first_page_witness :
    ∃ first rest, [pageOne, pageTwo] = first :: rest ∧
      listFiles worldTwoPages cfg0 s0 = (.ok first, ⟨s0.fs, s0.reqs ++ [listUrl0]⟩) ∧
      (cfg0.path ≠ [] → cfg0.account ≠ [] → cfg0.container ≠ [] →
        main worldTwoPages cfg0 s0
          = rangeBlobs worldTwoPages cfg0 first.Blobs ⟨s0.fs, s0.reqs ++ [listUrl0]⟩) ∧
      allBlobs [pageOne, pageTwo] = first.Blobs ++ allBlobs rest ∧
      (rest = [] → first.Blobs = allBlobs [pageOne, pageTwo]) :=
  listFiles_returns_first_page worldTwoPages cfg0 s0 [pageOne, pageTwo] listUrl0 200 [1]
    (by decide) (by decide) (by decide) (by decide)

/-- C1 fails as stated: for a container served in two chained pages (the
request with the marker of page one would get page two), `listFiles` returns
page one only, so the run enumerates one blob where the two pages hold two,
and requests the listing once and the first blob, never the second page. -/
theorem listFiles_ignores_next_marker :
    pagesChained [pageOne, pageTwo] ∧
      worldTwoPages.httpGet [] listUrl0 = .response 200 (some [1]) ∧
      worldTwoPages.xmlUnmarshal [1] = some pageOne ∧
      worldTwoPages.httpGet [listUrl0] listUrlMarker = .response 200 (some [2]) ∧
      worldTwoPages.xmlUnmarshal [2] = some pageTwo ∧
      listFiles worldTwoPages cfg0 s0 = (.ok pageOne, ⟨[], [listUrl0]⟩) ∧
      pageOne.Blobs = [blobA] ∧
      allBlobs [pageOne, pageTwo] = [blobA, blobB] ∧
      pageOne.Blobs ≠ allBlobs [pageOne, pageTwo] ∧
      (main worldTwoPages cfg0 s0).2.reqs = [listUrl0, urlA] := by
  refine ⟨by decide, by decide, by decide, by decide, by decide, by rfl, by decide,
    by decide, by decide, by decide⟩

/-- C2, as the code has it: a blob whose local path exists when its round of
the loop starts (`Stat` does not report that it is missing) is still fetched,
by one request to its address, and the round leaves the file system as it
was; and after a run that completed, a second run from the file system it
left, against the same network, requests the listing and every listed blob
once more and leaves the file system as it was. -/
theorem existing_path_fetched_not_written (w : World) (cfg : Config) (s : State) :
    (∀ (b : Blob) (u : URL), w.urlParse b.Url = some u →
        Stat s.fs (Join cfg.path u.Path) ≠ .err .ENOENT →
        (processBlob w cfg b s).2.reqs = s.reqs ++ [w.urlString u] ∧
          (processBlob w cfg b s).2.fs = s.fs) ∧
      ((main w cfg s).1 = .done →
        ∃ files, (listFiles w cfg s).1 = .ok files ∧
          (main w cfg ⟨(main w cfg s).2.fs, s.reqs⟩).2.fs = (main w cfg s).2.fs ∧
          (main w cfg ⟨(main w cfg s).2.fs, s.reqs⟩).2.reqs.length
            = s.reqs.length + 1 + files.Blobs.length) := by
  constructor
  · intro b u hu he
    rw [processBlob_existing w cfg b s u hu he]
    exact ⟨rfl, rfl⟩
  · intro h
    obtain ⟨files, target, hl, hm⟩ := main_done w cfg s h
    refine ⟨files, by rw [hl], ?_, ?_⟩
    · rw [main_rerun w cfg s h]
    · rw [main_rerun w cfg s h]
      rw [hm] at h ⊢
      rw [rangeBlobs_done_reqs w cfg files.Blobs _ h]
      simp

/-- Witness of C2 (amended): `a.txt` is there before the run, and a run that
is repeated. -/
theorem existing_path_fetched_not_written_witness :
    ((processBlob worldOnePage cfg0 blobA sHave).2.reqs = sHave.reqs ++ [urlA] ∧
        (processBlob worldOnePage cfg0 blobA sHave).2.fs = sHave.fs) ∧
      ∃ files, (listFiles worldOnePage cfg0 s0).1 = .ok files ∧
        (main worldOnePage cfg0 ⟨(main worldOnePage cfg0 s0).2.fs, s0.reqs⟩).2.fs
          = (main worldOnePage cfg0 s0).2.fs ∧
        (main worldOnePage cfg0 ⟨(main worldOnePage cfg0 s0).2.fs, s0.reqs⟩).2.reqs.length
          = s0.reqs.length + 1 + files.Blobs.length :=
  ⟨(existing_path_fetched_not_written worldOnePage cfg0 sHave).1 blobA
      ⟨"https".toList, "acc.blob.core.windows.net".toList, "/pub/a.txt".toList, [], []⟩
      (by decide) (by decide),
    (existing_path_fetched_not_written worldOnePage cfg0 s0).2 (by decide)⟩

/-- C2 fails as stated: `out/pub/a.txt` exists before the blob `a.txt` is
processed, and the round still requests the address of the blob; and the
second of two runs against the same container requests both blobs again. -/
theorem fetch_precedes_existence_check :
    (simpleUrlParse blobA.Url).map (fun u => u.Path) = some "/pub/a.txt".toList ∧
      Join cfg0.path "/pub/a.txt".toList = pathA ∧
      Stat sHave.fs pathA = .file ∧
      processBlob worldOnePage cfg0 blobA sHave = (.done, ⟨fsHave, [urlA]⟩) ∧
      (main worldOnePage cfg0 s0).1 = .done ∧
      (main worldOnePage cfg0 ⟨(main worldOnePage cfg0 s0).2.fs, []⟩).2.reqs
        = [listUrl0, urlA, urlB] := by
  refine ⟨by decide, by decide, by decide, by decide, by decide, by decide⟩

/-- C3: a file that is in the file system before the run (at the local path
of a blob or anywhere else) is in the file system after the run, completed or
aborted, with the same bytes and mode, whatever the network answered; and if
`Stat` found a file there before, it finds a file there after. -/
theorem existing_file_kept (w : World) (cfg : Config) (s : State) (p : CPath)
    (data : Bytes) (perm : Nat) (h : lookup s.fs p = some (.file data perm)) :
    lookup (main w cfg s).2.fs p = some (.file data perm) ∧
      (Stat s.fs p = .file → Stat (main w cfg s).2.fs p = .file) := by
  refine ⟨(main_grows w cfg s).1 p _ h, ?_⟩
  intro hs
  rw [Stat_mono (main_grows w cfg s).1 p (by rw [hs]; simp), hs]

/-- Witness of C3: `out/pub/a.txt` holds the byte 7 before the run, the
network serves the byte 10 for it, and it holds the byte 7 after the run. -/
theorem existing_file_kept_witness :
    lookup sHave.fs pathA = some (.file [7] 0o644) ∧
      worldOnePage.httpGet [listUrl0] urlA = .response 200 (some [10]) ∧
      lookup (main worldOnePage cfg0 sHave).2.fs pathA = some (.file [7] 0o644) ∧
      (Stat sHave.fs pathA = .file → Stat (main worldOnePage cfg0 sHave).2.fs pathA = .file) :=
  ⟨by decide, by decide,
    existing_file_kept worldOnePage cfg0 sHave pathA [7] 0o644 (by decide)⟩

/-- C4: if a run completes without panic, a second run with the same
configuration against the same network, started on the file system the first
run left, completes without panic too and leaves that file system as it is. -/
theorem second_run_changes_nothing (w : World) (cfg : Config) (s : State)
    (h : (main w cfg s).1 = .done) :
    (main w cfg ⟨(main w cfg s).2.fs, s.reqs⟩).1 = .done ∧
      (main w cfg ⟨(main w cfg s).2.fs, s.reqs⟩).2.fs = (main w cfg s).2.fs := by
  rw [main_rerun w cfg s h]
  exact ⟨rfl, rfl⟩

/-- Witness of C4: two runs on the container served in one page, the first
from the empty file system. -/
theorem second_run_changes_nothing_witness :
    (main worldOnePage cfg0 s0).1 = .done ∧
      (main worldOnePage cfg0 ⟨(main worldOnePage cfg0 s0).2.fs, s0.reqs⟩).1 = .done ∧
      (main worldOnePage cfg0 ⟨(main worldOnePage cfg0 s0).2.fs, s0.reqs⟩).2.fs
        = (main worldOnePage cfg0 s0).2.fs :=
  ⟨by decide, second_run_changes_nothing worldOnePage cfg0 s0 (by decide)⟩

/-- C5, as the code has it: for every destination root and every blob whose
address has the path `/<container>/<rest>` (no `..` segment in `<rest>`), the
local path is the root joined with the whole path, the container segment
included: the segments of the cleaned root, then `<container>`, then the
segments of `<rest>`; and when `Stat` reports that nothing exists there yet
(in a file system tree) and the fetch is answered, the round writes the
fetched bytes to that path. -/
theorem blob_written_below_container_segment (w : World) (cfg : Config) (b : Blob)
    (s : State) (u : URL) (container rest : Str) (status : Nat) (body : Bytes)
    (hroot : cfg.path ≠ [])
    (hu : w.urlParse b.Url = some u)
    (hpath : u.Path = '/' :: container ++ '/' :: rest)
    (hc : '/' ∉ container) (hk : keepSeg container = true) (hcd : container ≠ dotdot)
    (hrest : dotdot ∉ splitSlash rest)
    (hr : w.httpGet s.reqs (w.urlString u) = .response status (some body))
    (ht : Tree s.fs)
    (hne : Stat s.fs (Join cfg.path u.Path) = .err .ENOENT) :
    (Join cfg.path u.Path).rooted = (Clean cfg.path).rooted ∧
      (Join cfg.path u.Path).segs
        = (Clean cfg.path).segs ++ container :: (splitSlash rest).filter keepSeg ∧
      (processBlob w cfg b s).1 = .done ∧
      lookup (processBlob w cfg b s).2.fs (Join cfg.path u.Path) = some (.file body 0) := by
  have hsplit : splitSlash u.Path = [] :: container :: splitSlash rest := by
    rw [hpath]
    have : '/' :: container ++ '/' :: rest = [] ++ '/' :: (container ++ '/' :: rest) := rfl
    rw [this, splitSlash_append, splitSlash_append, splitSlash_no_slash container hc]
    rfl
  have hdd : dotdot ∉ splitSlash u.Path := by
    rw [hsplit]
    intro hm
    rcases List.mem_cons.1 hm with h1 | h1
    · cases h1
    · rcases List.mem_cons.1 h1 with h2 | h2
      · exact hcd h2.symm
      · exact hrest h2
  obtain ⟨hrt, hsegs⟩ := Join_segs cfg.path u.Path hroot hdd
  have hfil : (splitSlash u.Path).filter keepSeg
      = container :: (splitSlash rest).filter keepSeg := by
    rw [hsplit, List.filter_cons, List.filter_cons]
    have h0 : keepSeg [] = false := by decide
    simp [h0, hk]
  rw [hfil] at hsegs
  have hlast : ∀ x up, (Join cfg.path u.Path).segs.reverse = x :: up → x ≠ dotdot := by
    intro x up hx
    rw [hsegs] at hx
    simp only [List.reverse_append, List.reverse_cons, List.append_assoc] at hx
    have hx2 : x = container ∨ x ∈ (splitSlash rest).filter keepSeg := by
      cases hf : (List.filter keepSeg (splitSlash rest)).reverse with
      | nil =>
        rw [hf] at hx
        simp at hx
        exact Or.inl hx.1.symm
      | cons y ys =>
        rw [hf] at hx
        simp at hx
        right
        have : y ∈ (List.filter keepSeg (splitSlash rest)).reverse := by rw [hf]; simp
        rw [← hx.1]
        exact List.mem_reverse.1 this
    rcases hx2 with h1 | h1
    · rw [h1]; exact hcd
    · intro hxd
      rw [hxd] at h1
      exact hrest (List.mem_of_mem_filter h1)
  have hd := downloadFile_response w (w.urlString u) s status body hr
  have hw := storeBlob_writes w b (Join cfg.path u.Path) body
    ⟨s.fs, s.reqs ++ [w.urlString u]⟩ ht hne hlast
  rw [processBlob_some w cfg b s u hu, hd]
  exact ⟨hrt, hsegs, hw.1, hw.2⟩

/-- Witness of C5 (amended): the blob `/container/a/b/c.txt` and the root
`out`, from the empty file system. -/
theorem blob_written_below_container_segment_witness :
    (Join cfgC.path "/container/a/b/c.txt".toList).rooted = (Clean cfgC.path).rooted ∧
      (Join cfgC.path "/container/a/b/c.txt".toList).segs
        = (Clean cfgC.path).segs ++
            "container".toList :: (splitSlash "a/b/c.txt".toList).filter keepSeg ∧
      (processBlob worldC cfgC blobC ⟨[], [listUrlC]⟩).1 = .done ∧
      lookup (processBlob worldC cfgC blobC ⟨[], [listUrlC]⟩).2.fs
          (Join cfgC.path "/container/a/b/c.txt".toList)
        = some (.file [42] 0) :=
  blob_written_below_container_segment worldC cfgC blobC ⟨[], [listUrlC]⟩
    ⟨"https".toList, "acc.blob.core.windows.net".toList, "/container/a/b/c.txt".toList, [], []⟩
    "container".toList "a/b/c.txt".toList 200 [42]
    (by decide) (by decide) (by decide) (by decide) (by decide) (by decide) (by decide)
    (by decide) (by decide) (by decide)

/-- C5 fails as stated: the blob whose address has the path
`/container/a/b/c.txt` is written to `out/container/a/b/c.txt`, and nothing is
written to `out/a/b/c.txt`. -/
theorem container_segment_kept :
    (simpleUrlParse blobC.Url).map (fun u => u.Path) = some "/container/a/b/c.txt".toList ∧
      Join cfgC.path "/container/a/b/c.txt".toList
        = ⟨false, ["out".toList, "container".toList, "a".toList, "b".toList,
            "c.txt".toList]⟩ ∧
      (main worldC cfgC s0).1 = .done ∧
      lookup (main worldC cfgC s0).2.fs
          ⟨false, ["out".toList, "a".toList, "b".toList, "c.txt".toList]⟩ = none ∧
      lookup (main worldC cfgC s0).2.fs
          ⟨false, ["out".toList, "container".toList, "a".toList, "b".toList,
            "c.txt".toList]⟩ = some (.file [42] 0) := by
  refine ⟨by decide, by decide, by decide, by decide, by decide⟩

/-- C6, as the code has it: for every root that is not empty and every blob
whose address has a path without `..` segment, the cleaned
`filepath.Join(root, path)` has the cleaned root as a path prefix; and every
entry a round of the loop adds to the file system is this path or a directory
above it, hence lies under the root or is one of the directories above the
root that `MkdirAll` made. -/
theorem join_stays_under_root (w : World) (cfg : Config) (b : Blob) (s : State) (u : URL)
    (hroot : cfg.path ≠ [])
    (hu : w.urlParse b.Url = some u)
    (hdd : dotdot ∉ splitSlash u.Path) :
    Under (Clean cfg.path) (Join cfg.path u.Path) ∧
      ∀ q, lookup (processBlob w cfg b s).2.fs q ≠ lookup s.fs q →
        Under q (Join cfg.path u.Path) ∧
          (Under (Clean cfg.path) q ∨ Under q (Clean cfg.path)) := by
  obtain ⟨hrt, hsegs⟩ := Join_segs cfg.path u.Path hroot hdd
  have hunder : Under (Clean cfg.path) (Join cfg.path u.Path) :=
    ⟨hrt.symm, by rw [hsegs]; exact List.prefix_append _ _⟩
  refine ⟨hunder, ?_⟩
  intro q hq
  rcases processBlob_grows_some w cfg b s u hu q with h | ⟨_, hqu, _⟩
  · exact absurd h hq
  · refine ⟨hqu, ?_⟩
    rcases List.prefix_or_prefix_of_prefix hunder.2 hqu.2 with h | h
    · exact Or.inl ⟨hunder.1.trans hqu.1.symm, h⟩
    · exact Or.inr ⟨hqu.1.trans hunder.1.symm, h⟩

/-- Witness of C6 (amended): the blob `a.txt` below the root `out`. -/
theorem join_stays_under_root_witness :
    Under (Clean cfg0.path) (Join cfg0.path "/pub/a.txt".toList) ∧
      ∀ q, lookup (processBlob worldOnePage cfg0 blobA ⟨[], [listUrl0]⟩).2.fs q
            ≠ lookup ([] : FS) q →
        Under q (Join cfg0.path "/pub/a.txt".toList) ∧
          (Under (Clean cfg0.path) q ∨ Under q (Clean cfg0.path)) :=
  join_stays_under_root worldOnePage cfg0 blobA ⟨[], [listUrl0]⟩
    ⟨"https".toList, "acc.blob.core.windows.net".toList, "/pub/a.txt".toList, [], []⟩
    (by decide) (by decide) (by decide)

/-- C6 fails as stated: for the root `out` and a blob whose address has the
path `/../x`, `filepath.Join` yields `x`, which does not have `out` as a path
prefix, and the run writes the blob there, outside the destination root. -/
theorem dotdot_leaves_destination :
    (simpleUrlParse blobEsc.Url).map (fun u => u.Path) = some "/../x".toList ∧
      Clean cfg0.path = ⟨false, ["out".toList]⟩ ∧
      Join cfg0.path "/../x".toList = ⟨false, ["x".toList]⟩ ∧
      ¬ Under (Clean cfg0.path) (Join cfg0.path "/../x".toList) ∧
      (main worldEsc cfg0 s0).1 = .done ∧
      lookup (main worldEsc cfg0 s0).2.fs ⟨false, ["x".toList]⟩ = some (.file [66] 0) := by
  refine ⟨by decide, by decide, by decide, by decide, by decide, by decide⟩

/-- C7, as the code has it: if the blobs before blob `k` are processed without
panic and the fetch of blob `k` gets no response, then every blob before `k`
is materialized (something exists at its local path), `main` panics at blob
`k` with the one failure "error download file", and the blobs after `k` are
neither fetched nor written: the state is the one the blobs before `k` left,
plus the request for blob `k`. -/
theorem fetch_failure_aborts_at_blob (w : World) (cfg : Config)
    (pre post : List Blob) (bk : Blob) (s : State) (u : URL)
    (hpre : (rangeBlobs w cfg pre s).1 = .done)
    (hu : w.urlParse bk.Url = some u)
    (hf : w.httpGet (rangeBlobs w cfg pre s).2.reqs (w.urlString u) = .transportError) :
    rangeBlobs w cfg (pre ++ bk :: post) s
        = (.panic (.downloadFile bk.Url),
            ⟨(rangeBlobs w cfg pre s).2.fs,
              (rangeBlobs w cfg pre s).2.reqs ++ [w.urlString u]⟩) ∧
      ∀ b ∈ pre, ∃ ub, w.urlParse b.Url = some ub ∧
        Stat (rangeBlobs w cfg pre s).2.fs (Join cfg.path ub.Path) ≠ .err .ENOENT := by
  refine ⟨?_, rangeBlobs_done_settled w cfg pre s hpre⟩
  rw [rangeBlobs_append]
  cases hr : rangeBlobs w cfg pre s with
  | mk o s1 =>
    rw [hr] at hpre hf
    simp only at hpre hf
    subst hpre
    simp only
    have hd : (downloadFile w (w.urlString u) s1).1 = none :=
      (downloadFile_none_iff w _ s1).2 (Or.inl hf)
    have hp : processBlob w cfg bk s1
        = (.panic (.downloadFile bk.Url), ⟨s1.fs, s1.reqs ++ [w.urlString u]⟩) := by
      rw [processBlob_some w cfg bk s1 u hu, hd]
    rw [rangeBlobs_cons_panic w cfg bk post s1 (by rw [hp]; simp), hp]

/-- Witness of C7 (amended): of the blobs `b.txt`, `a.txt`, `b.txt` the second
cannot be fetched. -/
theorem fetch_failure_aborts_at_blob_witness :
    rangeBlobs worldFetchFails cfg0 ([blobB] ++ blobA :: [blobB]) ⟨[], [listUrl0]⟩
        = (.panic (.downloadFile blobA.Url),
            ⟨(rangeBlobs worldFetchFails cfg0 [blobB] ⟨[], [listUrl0]⟩).2.fs,
              (rangeBlobs worldFetchFails cfg0 [blobB] ⟨[], [listUrl0]⟩).2.reqs ++ [urlA]⟩) ∧
      ∀ b ∈ [blobB], ∃ ub, worldFetchFails.urlParse b.Url = some ub ∧
        Stat (rangeBlobs worldFetchFails cfg0 [blobB] ⟨[], [listUrl0]⟩).2.fs
          (Join cfg0.path ub.Path) ≠ .err .ENOENT :=
  fetch_failure_aborts_at_blob worldFetchFails cfg0 [blobB] [blobB] blobA ⟨[], [listUrl0]⟩
    ⟨"https".toList, "acc.blob.core.windows.net".toList, "/pub/a.txt".toList, [], []⟩
    (by decide) (by decide) (by decide)

/-- C7 fails as stated: of the two listed blobs the fetch of the first gets no
response and the fetch of the second would succeed; the run panics at the
first blob, never requests the second and leaves nothing at its local path. -/
theorem fetch_failure_stops_run :
    listFiles worldFetchFails cfg0 s0 = (.ok onePage, ⟨[], [listUrl0]⟩) ∧
      onePage.Blobs = [blobA, blobB] ∧
      worldFetchFails.httpGet [listUrl0] urlA = .transportError ∧
      worldFetchFails.httpGet [listUrl0, urlA] urlB = .response 200 (some [11]) ∧
      main worldFetchFails cfg0 s0
        = (.panic (.downloadFile urlA), ⟨[], [listUrl0, urlA]⟩) ∧
      Join cfg0.path "/pub/b.txt".toList = pathB ∧
      lookup (main worldFetchFails cfg0 s0).2.fs pathB = none ∧
      Stat (main worldFetchFails cfg0 s0).2.fs pathB = .err .ENOENT := by
  refine ⟨by rfl, by decide, by decide, by decide, by decide, by decide, by decide,
    by decide⟩

/-- C8, as the code has it: `downloadFile` never looks at the status code. It
returns an error exactly when `http.Get` gets no response or the body cannot
be read; for a response of any status whose body is read it returns the body,
`main` goes on to store it, and when `Stat` reports that nothing exists at the
local path (in a file system tree, for a path that does not end in `..`) the
body becomes the content of the file. -/
theorem downloadFile_ignores_status (w : World) (cfg : Config) (b : Blob) (s : State)
    (u : URL) (status : Nat) (body : Bytes)
    (hu : w.urlParse b.Url = some u)
    (hr : w.httpGet s.reqs (w.urlString u) = .response status (some body)) :
    (downloadFile w (w.urlString u) s).1 = some body ∧
      processBlob w cfg b s
        = storeBlob w b (Join cfg.path u.Path) body ⟨s.fs, s.reqs ++ [w.urlString u]⟩ ∧
      (Tree s.fs → Stat s.fs (Join cfg.path u.Path) = .err .ENOENT →
        (∀ x up, (Join cfg.path u.Path).segs.reverse = x :: up → x ≠ dotdot) →
        (processBlob w cfg b s).1 = .done ∧
          lookup (processBlob w cfg b s).2.fs (Join cfg.path u.Path)
            = some (.file body 0)) ∧
      ∀ url, (downloadFile w url s).1 = none ↔
        (w.httpGet s.reqs url = .transportError ∨
          ∃ st, w.httpGet s.reqs url = .response st none) := by
  have hd := downloadFile_response w (w.urlString u) s status body hr
  have hp : processBlob w cfg b s
      = storeBlob w b (Join cfg.path u.Path) body ⟨s.fs, s.reqs ++ [w.urlString u]⟩ := by
    rw [processBlob_some w cfg b s u hu, hd]
  refine ⟨hd, hp, ?_, fun url => downloadFile_none_iff w url s⟩
  intro ht hne hlast
  rw [hp]
  exact storeBlob_writes w b (Join cfg.path u.Path) body
    ⟨s.fs, s.reqs ++ [w.urlString u]⟩ ht hne hlast

/-- Witness of C8 (amended): the fetch of `a.txt` is answered with status 404. -/
theorem downloadFile_ignores_status_witness :
    (downloadFile worldNotFound urlA ⟨[], [listUrl0]⟩).1 = some [52, 48, 52] ∧
      processBlob worldNotFound cfg0 blobA ⟨[], [listUrl0]⟩
        = storeBlob worldNotFound blobA (Join cfg0.path "/pub/a.txt".toList) [52, 48, 52]
            ⟨[], [listUrl0] ++ [urlA]⟩ ∧
      (Tree ([] : FS) → Stat [] (Join cfg0.path "/pub/a.txt".toList) = .err .ENOENT →
        (∀ x up, (Join cfg0.path "/pub/a.txt".toList).segs.reverse = x :: up → x ≠ dotdot) →
        (processBlob worldNotFound cfg0 blobA ⟨[], [listUrl0]⟩).1 = .done ∧
          lookup (processBlob worldNotFound cfg0 blobA ⟨[], [listUrl0]⟩).2.fs
            (Join cfg0.path "/pub/a.txt".toList) = some (.file [52, 48, 52] 0)) ∧
      ∀ url, (downloadFile worldNotFound url ⟨[], [listUrl0]⟩).1 = none ↔
        (worldNotFound.httpGet [listUrl0] url = .transportError ∨
          ∃ st, worldNotFound.httpGet [listUrl0] url = .response st none) :=
  downloadFile_ignores_status worldNotFound cfg0 blobA ⟨[], [listUrl0]⟩
    ⟨"https".toList, "acc.blob.core.windows.net".toList, "/pub/a.txt".toList, [], []⟩
    404 [52, 48, 52] (by decide) (by decide)

/-- C8 fails as stated: the fetch of `a.txt` is answered with status 404 and
an error document; `downloadFile` returns the document without error and the
run stores it as the content of `out/pub/a.txt`. -/
theorem error_body_stored :
    worldNotFound.httpGet [listUrl0] urlA = .response 404 (some [52, 48, 52]) ∧
      downloadFile worldNotFound urlA ⟨[], [listUrl0]⟩
        = (some [52, 48, 52], ⟨[], [listUrl0, urlA]⟩) ∧
      (main worldNotFound cfg0 s0).1 = .done ∧
      lookup (main worldNotFound cfg0 s0).2.fs pathA = some (.file [52, 48, 52] 0) := by
  refine ⟨by decide, by decide, by decide, by decide⟩

/-- C9: if `path`, `account` or `container` is the empty string, `main` panics
with the message of the first missing one and leaves the state as it was: no
request is made (neither the listing nor a fetch) and the file system is
unchanged. The page size is not checked: when the three are not empty, no
value of `maxresults` makes `main` panic with one of these messages. -/
theorem missing_flag_panics_before_any_request (w : World) (cfg : Config) (s : State) :
    ((cfg.path = [] ∨ cfg.account = [] ∨ cfg.container = []) →
        ∃ p, (p = .pathMissing ∨ p = .accountMissing ∨ p = .containerMissing) ∧
          main w cfg s = (.panic p, s)) ∧
      (cfg.path ≠ [] → cfg.account ≠ [] → cfg.container ≠ [] →
        ∀ (n : Int) (p : Panic), (main w { cfg with maxresults := n } s).1 = .panic p →
          p ≠ .pathMissing ∧ p ≠ .accountMissing ∧ p ≠ .containerMissing) := by
  constructor
  · intro h
    by_cases h1 : cfg.path = []
    · exact ⟨_, Or.inl rfl, by simp [main, h1]⟩
    by_cases h2 : cfg.account = []
    · exact ⟨_, Or.inr (Or.inl rfl), by simp [main, h1, h2]⟩
    by_cases h3 : cfg.container = []
    · exact ⟨_, Or.inr (Or.inr rfl), by simp [main, h1, h2, h3]⟩
    rcases h with h | h | h
    · exact absurd h h1
    · exact absurd h h2
    · exact absurd h h3
  · intro h1 h2 h3 n p hp
    rw [main_of_config w { cfg with maxresults := n } s h1 h2 h3] at hp
    cases hl : listFiles w { cfg with maxresults := n } s with
    | mk r s1 =>
      rw [hl] at hp
      cases r with
      | error e =>
        simp only [Outcome.panic.injEq] at hp
        subst hp
        simp
      | ok files =>
        simp only at hp
        have key : ∀ (bs : List Blob) (t : State) (q : Panic),
            (rangeBlobs w { cfg with maxresults := n } bs t).1 = .panic q →
            q ≠ .pathMissing ∧ q ≠ .accountMissing ∧ q ≠ .containerMissing := by
          intro bs
          induction bs with
          | nil => intro t q hq; simp [rangeBlobs] at hq
          | cons b0 bs ih =>
            intro t q hq
            by_cases hd : (processBlob w { cfg with maxresults := n } b0 t).1 = .done
            · rw [rangeBlobs_cons_done _ _ b0 bs t hd] at hq
              exact ih _ q hq
            · rw [rangeBlobs_cons_panic _ _ b0 bs t hd] at hq
              cases hup : w.urlParse b0.Url with
              | none =>
                simp only [processBlob, hup, Outcome.panic.injEq] at hq
                subst hq
                simp
              | some u0 =>
                rw [processBlob_some _ _ b0 t u0 hup] at hq
                cases hdl : (downloadFile w (w.urlString u0) t).1 with
                | none =>
                  rw [hdl] at hq
                  simp only [Outcome.panic.injEq] at hq
                  subst hq
                  simp
                | some body =>
                  rw [hdl] at hq
                  simp only [storeBlob] at hq
                  split at hq
                  · simp only [Outcome.panic.injEq] at hq
                    subst hq
                    simp
                  · split at hq
                    · split at hq
                      · simp only [Outcome.panic.injEq] at hq
                        subst hq
                        simp
                      · simp at hq
                    · simp at hq
        exact key files.Blobs s1 p hp

/-- Witness of C9: no account is given, on a file system that holds a file;
and the complete configuration `cfg0` with any page size. -/
theorem missing_flag_panics_before_any_request_witness :
    (∃ p, (p = .pathMissing ∨ p = .accountMissing ∨ p = .containerMissing) ∧
        main worldOnePage ⟨"out".toList, [], "pub".toList, 500⟩ sHave = (.panic p, sHave)) ∧
      ∀ (n : Int) (p : Panic),
        (main worldOnePage { cfg0 with maxresults := n } sHave).1 = .panic p →
          p ≠ .pathMissing ∧ p ≠ .accountMissing ∧ p ≠ .containerMissing :=
  ⟨(missing_flag_panics_before_any_request worldOnePage
      ⟨"out".toList, [], "pub".toList, 500⟩ sHave).1 (by decide),
    (missing_flag_panics_before_any_request worldOnePage cfg0 sHave).2
      (by decide) (by decide) (by decide)⟩

/-- C10: the mode `main` passes to `os.WriteFile` is `os.ModeTemporary`, the
single bit `1 << 28`, none of whose permission bits is set; so whatever the
umask, it reaches the system call as mode 0, and every file that is in the
file system after a run and was not there before has mode 0: no read, write
or execute permission for owner, group or others. -/
theorem new_files_have_mode_zero (w : World) (cfg : Config) (s : State) (p : CPath)
    (data : Bytes) (perm : Nat)
    (h : lookup (main w cfg s).2.fs p = some (.file data perm)) :
    (lookup s.fs p = some (.file data perm) ∨ perm = 0) ∧
      ModeTemporary = 2 ^ 28 ∧ ModeTemporary < 2 ^ 32 ∧
      ModeTemporary &&& 0o777 = 0 ∧
      ∀ umask, applyUmask (syscallMode ModeTemporary) umask = 0 :=
  ⟨(main_grows w cfg s).2 p data perm h, by decide, by decide, by decide,
    modeTemporary_zero⟩

/-- Witness of C10: the file `out/pub/b.txt` that the run creates next to the
file `out/pub/a.txt` that was there. -/
theorem new_files_have_mode_zero_witness :
    lookup (main worldOnePage cfg0 sHave).2.fs pathB = some (.file [11] 0) ∧
      (lookup sHave.fs pathB = some (.file [11] 0) ∨ 0 = 0) ∧
      ModeTemporary = 2 ^ 28 ∧ ModeTemporary < 2 ^ 32 ∧
      ModeTemporary &&& 0o777 = 0 ∧
      ∀ umask, applyUmask (syscallMode ModeTemporary) umask = 0 :=
  ⟨by decide, new_files_have_mode_zero worldOnePage cfg0 sHave pathB [11] 0 (by decide)⟩

end AzureBlob
